import Mathlib

/-!
# A Bloom filter backed by an array of 32-bit words

Shallow embedding of `bloomfilter.go`.

* `int` and `int64` values are `Int`; Go's `/` and `%` on them truncate toward
  zero, which is `Int.tdiv` and `Int.tmod`.
* `uint32` values are `Nat`, reduced `% 2 ^ 32` wherever the Go code wraps.
* A runtime panic (integer division by zero, slice index out of range, a
  `make` that does not return) is the `error` case of `Except Panic`.
* `float64` values are the rationals they denote; the rounding of float
  arithmetic, the functions of package `math` and the allocator behind `make`
  are a parameter, `MathLib`.
* Infinities and NaN are not represented. They arise in `NewBloomFilter` only
  for `probability <= 0`; there, and for a float of `2 ^ 63` or more, the
  result of the conversion to `int64` depends on the platform, and is taken as
  on amd64: the minimum `int64`.
* `uint` is taken to be 64 bits wide; the shifts by `uint(offset)` give the
  same `uint32` when it is 32 bits wide.
-/

namespace Bloomfilter

/-- The runtime failures the code can raise: the panics of an integer division
by zero and of a slice index out of range, and a `make` that does not return
(the panic `makeslice: len out of range`, or the memory of the machine is
exhausted). -/
inductive Panic
  | divideByZero
  | indexOutOfRange
  | makeslice
  deriving DecidableEq, Repr

deriving instance DecidableEq for Except

/-- The struct `BloomFilter`. -/
structure BloomFilter where
  Capacity : Int
  FalsePositiveRate : Int
  NumHashes : Int
  BitSize : Int
  numBuckets : Int
  state : List Nat
  deriving DecidableEq, Repr

/-- A byte slice. -/
abbrev Bytes := List (Fin 256)

/-- Offset basis of 64-bit FNV. -/
def fnvOffset64 : Nat := 14695981039346656037

/-- Prime of 64-bit FNV. -/
def fnvPrime64 : Nat := 1099511628211

/-- The digest `fnv.New64a().Write(input).Sum64()`: for each byte, xor it into
the hash and multiply by the prime, in 64 bits. -/
def fnv64a (input : Bytes) : Nat :=
  input.foldl (fun hash c => ((hash ^^^ c.val) * fnvPrime64) % 2 ^ 64) fnvOffset64

/-- The function `hashFNV1a`: the low and the high 32 bits of the digest. -/
def hashFNV1a (input : Bytes) : Nat × Nat :=
  let value64 := fnv64a input
  ((value64 &&& 0xFFFFFFFF) % 2 ^ 32, (value64 >>> 32) % 2 ^ 32)

/-- The value `1 << uint(offset)` as a `uint32`: `uint(offset)` is `offset`
modulo `2 ^ 64`, and the shifted constant is cut to 32 bits. -/
def shl1 (offset : Int) : Nat :=
  (1 <<< (offset % 2 ^ 64).toNat) % 2 ^ 32

/-- The word position `(index / 32) % numBuckets` of `setBit` and `testBit`. -/
def bucketOf (set : BloomFilter) (index : Int) : Int :=
  Int.tmod (Int.tdiv index 32) set.numBuckets

/-- The bit offset `index % 32` of `setBit` and `testBit`. -/
def offsetOf (index : Int) : Int :=
  Int.tmod index 32

/-- The method `setBit`. -/
def setBit (set : BloomFilter) (index : Int) : Except Panic BloomFilter :=
  if set.numBuckets = 0 then .error .divideByZero
  else
    let bucket := bucketOf set index
    let offset := offsetOf index
    if bucket < 0 ∨ (set.state.length : Int) ≤ bucket then .error .indexOutOfRange
    else
      .ok { set with
        state := set.state.set bucket.toNat
          (set.state.getD bucket.toNat 0 ||| shl1 offset) }

/-- The method `testBit`. -/
def testBit (set : BloomFilter) (index : Int) : Except Panic Int :=
  if set.numBuckets = 0 then .error .divideByZero
  else
    let bucket := bucketOf set index
    let offset := offsetOf index
    if bucket < 0 ∨ (set.state.length : Int) ≤ bucket then .error .indexOutOfRange
    else if set.state.getD bucket.toNat 0 &&& shl1 offset ≠ 0 then .ok 1
    else .ok 0

/-- The value `int64(hashA + hashB*uint32(i))`: sum and product wrap in 32
bits, then the result is widened. -/
def mix (hashA hashB i : Nat) : Int :=
  (((hashA + (hashB * (i % 2 ^ 32)) % 2 ^ 32) % 2 ^ 32 : Nat) : Int)

/-- The expression `int64(hashA + hashB*uint32(i)) % set.BitSize` of `Add` and
`Check`. -/
def indexAt (set : BloomFilter) (hashA hashB i : Nat) : Except Panic Int :=
  if set.BitSize = 0 then .error .divideByZero
  else .ok (Int.tmod (mix hashA hashB i) set.BitSize)

/-- The index of iteration `i` for an input, where `BitSize` is not zero. -/
def indexOf (set : BloomFilter) (input : Bytes) (i : Nat) : Int :=
  Int.tmod (mix (hashFNV1a input).1 (hashFNV1a input).2 i) set.BitSize

/-- The loop of `Add`: `n` iterations are left and the counter is `i`. -/
def addLoop (hashA hashB : Nat) : Nat → Nat → BloomFilter → Except Panic BloomFilter
  | 0, _, set => .ok set
  | n + 1, i, set =>
    match indexAt set hashA hashB i with
    | .error e => .error e
    | .ok index =>
      match setBit set index with
      | .error e => .error e
      | .ok set1 => addLoop hashA hashB n (i + 1) set1

/-- The method `Add`. The loop `for i := 0; i < set.NumHashes; i++` runs
`NumHashes` times, and not at all when `NumHashes` is zero or negative. -/
def Add (set : BloomFilter) (input : Bytes) : Except Panic BloomFilter :=
  addLoop (hashFNV1a input).1 (hashFNV1a input).2 set.NumHashes.toNat 0 set

/-- The loop of `Check`: `n` iterations are left and the counter is `i`. -/
def checkLoop (set : BloomFilter) (hashA hashB : Nat) : Nat → Nat → Except Panic Bool
  | 0, _ => .ok true
  | n + 1, i =>
    match indexAt set hashA hashB i with
    | .error e => .error e
    | .ok index =>
      match testBit set index with
      | .error e => .error e
      | .ok b => if b ≠ 1 then .ok false else checkLoop set hashA hashB n (i + 1)

/-- The method `Check`. -/
def Check (set : BloomFilter) (input : Bytes) : Except Panic Bool :=
  checkLoop set (hashFNV1a input).1 (hashFNV1a input).2 set.NumHashes.toNat 0

/-- A sequence of calls `Add(y)`, one for each `y` of the list, in order. -/
def addAll : BloomFilter → List Bytes → Except Panic BloomFilter
  | set, [] => .ok set
  | set, y :: ys =>
    match Add set y with
    | .error e => .error e
    | .ok set1 => addAll set1 ys

/-- The check as the specification words it, without the early return: test the
bit of each of the `n` indices, then take the conjunction of the results. -/
def checkAllLoop (set : BloomFilter) (hashA hashB : Nat) : Nat → Nat → Except Panic Bool
  | 0, _ => .ok true
  | n + 1, i =>
    match indexAt set hashA hashB i with
    | .error e => .error e
    | .ok index =>
      match testBit set index with
      | .error e => .error e
      | .ok b =>
        match checkAllLoop set hashA hashB n (i + 1) with
        | .error e => .error e
        | .ok rest => .ok (decide (b = 1) && rest)

/-- The specification's check on all `NumHashes` bits. -/
def CheckAll (set : BloomFilter) (input : Bytes) : Except Panic Bool :=
  checkAllLoop set (hashFNV1a input).1 (hashFNV1a input).2 set.NumHashes.toNat 0

/-- The shift count `uint(offset)`. -/
def bitNo (offset : Int) : Nat := (offset % 2 ^ 64).toNat

/-- Bit `o` of word `w` of the state is 1 (a position outside the slice holds
no bit). -/
def bitAt (state : List Nat) (w o : Nat) : Bool := (state.getD w 0).testBit o

/-- The filter `t` has the fields and the number of words of `s`, and every bit
that is 1 in `s` is 1 in `t`. -/
structure Grows (s t : BloomFilter) : Prop where
  capacity : t.Capacity = s.Capacity
  rate : t.FalsePositiveRate = s.FalsePositiveRate
  hashes : t.NumHashes = s.NumHashes
  bitSize : t.BitSize = s.BitSize
  buckets : t.numBuckets = s.numBuckets
  length : t.state.length = s.state.length
  bits : ∀ w o, bitAt s.state w o = true → bitAt t.state w o = true

/-- What the code takes from outside: the rounding of a real result to a
`float64` (in conversions, products and quotients), the functions `math.Log2`
and `math.Log`, on finite values, and whether the runtime allocates a slice of
so many `uint32` words (not beyond its allocation limit, nor beyond the memory
of the machine). -/
structure MathLib where
  round : ℚ → ℚ
  Log2 : ℚ → ℚ
  Log : ℚ → ℚ
  allocates : Nat → Bool

/-- The constant `math.E`. -/
def mathE : ℚ := 2.71828182845904523536028747135266249775724709369995957496696763

/-- The conversions `int64(f)` and `int(f)` of a float in range: the fraction is
dropped. -/
def toInt (f : ℚ) : Int := if 0 ≤ f then ⌊f⌋ else ⌈f⌉

/-- The float `float64(capacity) * math.Log2(math.E) * math.Log2(1/float64(probability))`. -/
def sizeProduct (lib : MathLib) (capacity probability : Int) : ℚ :=
  lib.round (lib.round (lib.round capacity * lib.Log2 (lib.round mathE)) *
    lib.Log2 (lib.round (1 / lib.round probability)))

/-- The value of `int64(math.Abs(math.Ceil(...)))` in `NewBloomFilter`, where
the float is finite and below `2 ^ 63`. -/
def bitSizeOf (lib : MathLib) (capacity probability : Int) : Int :=
  toInt |((⌈sizeProduct lib capacity probability⌉ : Int) : ℚ)|

/-- The value `int(math.Floor(float64(quotient) * math.Log(2)))`, which
`NewBloomFilter` computes for `quotient = bitSize / int64(capacity)`. -/
def hashCountOf (lib : MathLib) (quotient : Int) : Int :=
  toInt ((⌊lib.round (lib.round quotient * lib.Log 2)⌋ : Int) : ℚ)

/-- The value `bitSize` of `NewBloomFilter`. For `probability <= 0` the float is
infinite or NaN (`math.Log2` of an infinity or of a negative number), and a
float of `2 ^ 63` or more has no `int64` value: the conversion then gives the
minimum `int64`, as on amd64. -/
def bitSizeInt64 (lib : MathLib) (capacity probability : Int) : Int :=
  if 0 < probability ∧ bitSizeOf lib capacity probability < 2 ^ 63 then
    bitSizeOf lib capacity probability
  else -2 ^ 63

/-- The call `make([]uint32, n)` for a `uint` value `n`: a slice of `n` zero
words. It does not return when `n` does not fit an `int`, or when the runtime
does not allocate that many words. -/
def makeWords (lib : MathLib) (n : Nat) : Except Panic (List Nat) :=
  if n < 2 ^ 63 ∧ lib.allocates n = true then .ok (List.replicate n 0)
  else .error .makeslice

/-- The function `NewBloomFilter`. The integer division by `capacity` panics
when `capacity` is zero; `uint(numBuckets)` is `numBuckets` modulo `2 ^ 64`;
the call of `make` comes last. (The one quotient that overflows, the minimum
`int64` by -1, belongs to a call in which `make` panics.) -/
def NewBloomFilter (lib : MathLib) (capacity probability : Int) : Except Panic BloomFilter :=
  let bitSize := bitSizeInt64 lib capacity probability
  if capacity = 0 then .error .divideByZero
  else
    let numHashes := hashCountOf lib (Int.tdiv bitSize capacity)
    let numBuckets := Int.tdiv bitSize 32
    match makeWords lib (numBuckets % 2 ^ 64).toNat with
    | .error e => .error e
    | .ok words =>
      .ok {
        Capacity := capacity
        FalsePositiveRate := probability
        NumHashes := numHashes
        BitSize := bitSize
        numBuckets := numBuckets
        state := words }

/-- A function given by a finite table, zero elsewhere. -/
def tabulated (table : List (ℚ × ℚ)) (x : ℚ) : ℚ :=
  match table.find? (fun entry => entry.1 = x) with
  | some entry => entry.2
  | none => 0

/-- The outside of the worked examples: conversions, products and quotients
without rounding error, the logarithms at the arguments of the examples, to
16 significant digits (exact at the powers of two, as `math.Log2` is), and an
allocator that gives up to `2 ^ 48` bytes, the limit of the runtime on amd64.
No `Ceil` or `Floor` of the examples is within `1/10` of an integer, so the
rounding of `float64` does not change them. -/
def goMath : MathLib where
  round := fun q => q
  Log2 := tabulated [(mathE, 1.4426950408889634), (1, 0), (1 / 2, -1), (1 / 4, -2),
    (1 / 8, -3), (1 / 10, -3.321928094887362), (1 / 1024, -10), (1 / 16384, -14)]
  Log := tabulated [(2, 0.6931471805599453)]
  allocates := fun n => decide (4 * n ≤ 2 ^ 48)

/-- The filter that `NewBloomFilter(1000000, 16384)` returns, the one of the
tests. -/
def testFilter : BloomFilter :=
  ⟨1000000, 16384, 13, 20197730, 631179, List.replicate 631179 0⟩

/-- The filter that `NewBloomFilter(4, 1024)` returns: 57 bits in one word. -/
def oneWordFilter : BloomFilter := ⟨4, 1024, 9, 57, 1, [0]⟩

/-- The bit `o` of word `w` is the one that `setBit` and `testBit` address for
an index. -/
def Addresses (s : BloomFilter) (index : Int) (w o : Nat) : Prop :=
  w = (bucketOf s index).toNat ∧ bitNo (offsetOf index) < 32 ∧ o = bitNo (offsetOf index)

/-- The index as the specification words it, from the 64-bit digest: `hashA` is
its low half and `hashB` its high half, the sum `hashA + hashB * i` wraps in 32
bits and is then taken modulo the number of bits `m`. -/
def specIndex (m : Int) (digest : Nat) (i : Nat) : Int :=
  (((digest % 2 ^ 32 + digest / 2 ^ 32 * i) % 2 ^ 32 : Nat) : Int) % m

/-- The bit `o` of word `w` is one of those that `Add(x)` sets on the filter. -/
def AddedBy (s : BloomFilter) (x : Bytes) (w o : Nat) : Prop :=
  ∃ j : Nat, (j : Int) < s.NumHashes ∧ Addresses s (indexOf s x j) w o

/-- The filter that `NewBloomFilter(1000000000, 1024)` returns: more than
`2 ^ 32` bits. -/
def bigFilter : BloomFilter :=
  ⟨1000000000, 1024, 9, 14426950408, 450842200, List.replicate 450842200 0⟩

/-- The method `testBit` with the receiver passed on: the result and the filter
the call leaves behind. The body of `testBit` assigns to nothing. -/
def testBitM (set : BloomFilter) (index : Int) : Except Panic (Int × BloomFilter) :=
  if set.numBuckets = 0 then .error .divideByZero
  else
    let bucket := bucketOf set index
    let offset := offsetOf index
    if bucket < 0 ∨ (set.state.length : Int) ≤ bucket then .error .indexOutOfRange
    else if set.state.getD bucket.toNat 0 &&& shl1 offset ≠ 0 then .ok (1, set)
    else .ok (0, set)

/-- The loop of `Check` with the receiver passed on from call to call. -/
def checkLoopM (hashA hashB : Nat) : Nat → Nat → BloomFilter → Except Panic (Bool × BloomFilter)
  | 0, _, set => .ok (true, set)
  | n + 1, i, set =>
    match indexAt set hashA hashB i with
    | .error e => .error e
    | .ok index =>
      match testBitM set index with
      | .error e => .error e
      | .ok (b, set1) =>
        if b ≠ 1 then .ok (false, set1) else checkLoopM hashA hashB n (i + 1) set1

/-- The method `Check` with the receiver passed on: the result and the filter
the call leaves behind. -/
def CheckM (set : BloomFilter) (input : Bytes) : Except Panic (Bool × BloomFilter) :=
  checkLoopM (hashFNV1a input).1 (hashFNV1a input).2 set.NumHashes.toNat 0 set

/-- The filter that `NewBloomFilter(100, 2)` returns: 144 bits in 4 words and
no hash. -/
def noHashFilter : BloomFilter := ⟨100, 2, 0, 144, 4, [0, 0, 0, 0]⟩

/-- The filter that `NewBloomFilter(-100, 1024)` returns: 1443 bits in 45
words, and a negative number of hashes. -/
def negativeFilter : BloomFilter := ⟨-100, 1024, -10, 1443, 45, List.replicate 45 0⟩

/-- No operation on the filter can panic: the moduli are not zero and the slice
has exactly `numBuckets` words. -/
def Usable (s : BloomFilter) : Prop :=
  s.BitSize ≠ 0 ∧ 0 < s.numBuckets ∧ (s.state.length : Int) = s.numBuckets

/-! ## Bit arithmetic -/

theorem shl1_eq (offset : Int) :
    shl1 offset = if bitNo offset < 32 then 2 ^ bitNo offset else 0 := by
  unfold shl1
  rw [Nat.one_shiftLeft]
  show 2 ^ bitNo offset % 2 ^ 32 = _
  split
  · next h => exact Nat.mod_eq_of_lt (Nat.pow_lt_pow_right (by decide) h)
  · next h =>
    exact Nat.mod_eq_zero_of_dvd (Nat.pow_dvd_pow 2 (Nat.le_of_not_lt h))

theorem and_two_pow_ne_zero (w u : Nat) : w &&& 2 ^ u ≠ 0 ↔ w.testBit u = true := by
  constructor
  · intro h
    by_contra hb
    apply h
    apply Nat.eq_of_testBit_eq
    intro j
    rw [Nat.testBit_and, Nat.testBit_two_pow, Nat.zero_testBit]
    by_cases e : u = j
    · subst e; simp [hb]
    · simp [e]
  · intro hb h
    have := congrArg (fun z => z.testBit u) h
    simp [Nat.testBit_and, Nat.testBit_two_pow, hb] at this

theorem or_two_pow_of_testBit (w u : Nat) (h : w.testBit u = true) : w ||| 2 ^ u = w := by
  apply Nat.eq_of_testBit_eq
  intro j
  rw [Nat.testBit_or, Nat.testBit_two_pow]
  by_cases e : u = j
  · subst e; simp [h]
  · simp [e]

theorem and_shl1_ne_zero (w : Nat) (offset : Int) :
    w &&& shl1 offset ≠ 0 ↔ bitNo offset < 32 ∧ w.testBit (bitNo offset) = true := by
  rw [shl1_eq]
  by_cases h : bitNo offset < 32
  · simp only [h, if_true, true_and]
    exact and_two_pow_ne_zero w _
  · simp [h]

theorem testBit_or_shl1 (w : Nat) (offset : Int) (o : Nat) :
    (w ||| shl1 offset).testBit o =
      (w.testBit o || (decide (bitNo offset < 32) && decide (bitNo offset = o))) := by
  rw [shl1_eq, Nat.testBit_or]
  by_cases h : bitNo offset < 32
  · simp [h, Nat.testBit_two_pow]
  · simp [h]

theorem bitNo_offsetOf (index : Int) (h : 0 ≤ index) :
    bitNo (offsetOf index) < 32 ∧ (bitNo (offsetOf index) : Int) = index % 32 := by
  unfold bitNo offsetOf
  rw [Int.tmod_eq_emod h (by decide)]
  have h1 : 0 ≤ index % 32 := Int.emod_nonneg _ (by decide)
  have h2 : index % 32 < 32 := Int.emod_lt_of_pos _ (by decide)
  have h3 : index % 32 % 2 ^ 64 = index % 32 := Int.emod_eq_of_lt h1 (by omega)
  rw [h3]
  omega

/-! ## One bit: `setBit` and `testBit` -/

theorem Grows.refl (s : BloomFilter) : Grows s s :=
  ⟨rfl, rfl, rfl, rfl, rfl, rfl, fun _ _ h => h⟩

theorem Grows.trans {s t u : BloomFilter} (h1 : Grows s t) (h2 : Grows t u) : Grows s u :=
  ⟨h2.capacity.trans h1.capacity, h2.rate.trans h1.rate, h2.hashes.trans h1.hashes,
    h2.bitSize.trans h1.bitSize, h2.buckets.trans h1.buckets, h2.length.trans h1.length,
    fun w o h => h2.bits w o (h1.bits w o h)⟩

theorem setBit_ok_iff (s t : BloomFilter) (index : Int) :
    setBit s index = .ok t ↔
      s.numBuckets ≠ 0 ∧ 0 ≤ bucketOf s index ∧ bucketOf s index < s.state.length ∧
      t = { s with
        state := s.state.set (bucketOf s index).toNat
          (s.state.getD (bucketOf s index).toNat 0 ||| shl1 (offsetOf index)) } := by
  unfold setBit
  by_cases h0 : s.numBuckets = 0
  · simp [h0]
  · by_cases h1 : bucketOf s index < 0 ∨ (s.state.length : Int) ≤ bucketOf s index
    · simp only [h0, h1, if_true, if_false, ne_eq, not_false_eq_true, true_and]
      constructor
      · intro h; cases h
      · rintro ⟨a, b, _⟩; omega
    · simp only [h0, h1, if_false, ne_eq, not_false_eq_true, true_and, Except.ok.injEq]
      constructor
      · intro h; exact ⟨by omega, by omega, h.symm⟩
      · rintro ⟨_, _, h⟩; exact h.symm

theorem testBit_eq_one_iff (s : BloomFilter) (index : Int) :
    testBit s index = .ok 1 ↔
      s.numBuckets ≠ 0 ∧ 0 ≤ bucketOf s index ∧ bucketOf s index < s.state.length ∧
      bitNo (offsetOf index) < 32 ∧
      bitAt s.state (bucketOf s index).toNat (bitNo (offsetOf index)) = true := by
  unfold bitAt
  rw [← and_shl1_ne_zero]
  simp only [testBit]
  split_ifs with h0 h1 h2
  · simp [h0]
  · constructor
    · intro h; cases h
    · rintro ⟨_, a, b, _⟩; omega
  · constructor
    · intro _; exact ⟨h0, by omega, by omega, h2⟩
    · intro _; rfl
  · constructor
    · intro h; cases h
    · rintro ⟨_, _, _, h⟩; exact absurd h h2

theorem testBit_ok_or (s : BloomFilter) (index : Int) (b : Int) (h : testBit s index = .ok b) :
    b = 1 ∨ b = 0 := by
  simp only [testBit] at h
  split_ifs at h
  · cases h; exact Or.inl rfl
  · cases h; exact Or.inr rfl

theorem bitAt_set (state : List Nat) (b : Nat) (v : Nat) (w o : Nat) (hb : b < state.length) :
    bitAt (state.set b v) w o = if w = b then v.testBit o else bitAt state w o := by
  unfold bitAt
  simp only [List.getD_eq_getElem?_getD, List.getElem?_set]
  by_cases e : b = w
  · subst e; simp [hb]
  · have e2 : ¬ w = b := fun h => e h.symm
    simp [e, e2]

theorem setBit_grows {s t : BloomFilter} {index : Int} (h : setBit s index = .ok t) :
    Grows s t := by
  obtain ⟨_, h1, h2, rfl⟩ := (setBit_ok_iff s t index).1 h
  refine ⟨rfl, rfl, rfl, rfl, rfl, by simp, ?_⟩
  intro w o hw
  have hb : (bucketOf s index).toNat < s.state.length := by omega
  show bitAt (s.state.set _ _) w o = true
  rw [bitAt_set _ _ _ _ _ hb]
  split
  · next e =>
    subst e
    rw [Nat.testBit_or]
    unfold bitAt at hw
    rw [hw]
    rfl
  · exact hw

theorem setBit_testBit {s t : BloomFilter} {index : Int} (h : setBit s index = .ok t)
    (hi : 0 ≤ index) : testBit t index = .ok 1 := by
  obtain ⟨h0, h1, h2, rfl⟩ := (setBit_ok_iff s t index).1 h
  have hb : (bucketOf s index).toNat < s.state.length := by omega
  rw [testBit_eq_one_iff]
  refine ⟨h0, h1, by simpa using h2, (bitNo_offsetOf index hi).1, ?_⟩
  show bitAt (s.state.set _ _) (bucketOf s index).toNat _ = true
  rw [bitAt_set _ _ _ _ _ hb, if_pos rfl, testBit_or_shl1]
  simp [(bitNo_offsetOf index hi).1]

theorem testBit_mono {s t : BloomFilter} (g : Grows s t) {index : Int}
    (h : testBit s index = .ok 1) : testBit t index = .ok 1 := by
  rw [testBit_eq_one_iff] at h ⊢
  have hb : bucketOf t index = bucketOf s index := by unfold bucketOf; rw [g.buckets]
  rw [hb, g.buckets, g.length]
  exact ⟨h.1, h.2.1, h.2.2.1, h.2.2.2.1, g.bits _ _ h.2.2.2.2⟩

theorem setBit_of_testBit {s : BloomFilter} {index : Int} (h : testBit s index = .ok 1) :
    setBit s index = .ok s := by
  rw [testBit_eq_one_iff] at h
  obtain ⟨h0, h1, h2, h3, h4⟩ := h
  rw [setBit_ok_iff]
  refine ⟨h0, h1, h2, ?_⟩
  have hb : (bucketOf s index).toNat < s.state.length := by omega
  unfold bitAt at h4
  rw [shl1_eq, if_pos h3, or_two_pow_of_testBit _ _ h4]
  have : s.state.set (bucketOf s index).toNat (s.state.getD (bucketOf s index).toNat 0) =
      s.state := by
    apply List.ext_getElem?
    intro j
    rw [List.getElem?_set]
    by_cases e : (bucketOf s index).toNat = j
    · subst e
      simp [hb, List.getD_eq_getElem?_getD]
    · simp [e]
  rw [this]

/-! ## The derived indices -/

theorem mix_nonneg (a b i : Nat) : 0 ≤ mix a b i := Int.ofNat_nonneg _

theorem mix_lt (a b i : Nat) : mix a b i < 2 ^ 32 := by
  unfold mix
  have : (a + b * (i % 2 ^ 32) % 2 ^ 32) % 2 ^ 32 < 2 ^ 32 := Nat.mod_lt _ (by decide)
  exact_mod_cast this

theorem indexAt_ok_iff (s : BloomFilter) (a b i : Nat) (index : Int) :
    indexAt s a b i = .ok index ↔
      s.BitSize ≠ 0 ∧ index = Int.tmod (mix a b i) s.BitSize := by
  unfold indexAt
  split_ifs with h
  · simp [h]
  · simp only [Except.ok.injEq, ne_eq, h, not_false_eq_true, true_and]
    exact eq_comm

theorem indexAt_nonneg {s : BloomFilter} {a b i : Nat} {index : Int}
    (h : indexAt s a b i = .ok index) : 0 ≤ index := by
  obtain ⟨_, rfl⟩ := (indexAt_ok_iff s a b i index).1 h
  exact Int.tmod_nonneg _ (mix_nonneg a b i)

theorem indexAt_congr {s t : BloomFilter} (g : Grows s t) (a b i : Nat) :
    indexAt t a b i = indexAt s a b i := by
  unfold indexAt
  rw [g.bitSize]

theorem bucketOf_range (s : BloomFilter) (index : Int) (hi : 0 ≤ index)
    (hn : 0 < s.numBuckets) : 0 ≤ bucketOf s index ∧ bucketOf s index < s.numBuckets := by
  unfold bucketOf
  have h1 : 0 ≤ index.tdiv 32 := Int.tdiv_nonneg hi (by decide)
  exact ⟨Int.tmod_nonneg _ h1, Int.tmod_lt_of_pos _ hn⟩

theorem Usable.of_grows {s t : BloomFilter} (g : Grows s t) (u : Usable s) : Usable t := by
  unfold Usable
  rw [g.bitSize, g.buckets, g.length]
  exact u

theorem setBit_total {s : BloomFilter} (u : Usable s) {index : Int} (hi : 0 ≤ index) :
    ∃ t, setBit s index = .ok t := by
  obtain ⟨_, h1, h2⟩ := u
  have hb := bucketOf_range s index hi h1
  exact ⟨_, (setBit_ok_iff s _ index).2 ⟨by omega, hb.1, by omega, rfl⟩⟩

theorem testBit_total {s : BloomFilter} (u : Usable s) {index : Int} (hi : 0 ≤ index) :
    ∃ b, testBit s index = .ok b := by
  obtain ⟨_, h1, h2⟩ := u
  have hb := bucketOf_range s index hi h1
  simp only [testBit]
  split_ifs with h0 h3 h4
  · omega
  · omega
  · exact ⟨1, rfl⟩
  · exact ⟨0, rfl⟩

/-! ## The loop of `Add` -/

theorem addLoop_succ_ok_iff (a b n i : Nat) (s t : BloomFilter) :
    addLoop a b (n + 1) i s = .ok t ↔
      ∃ index s1, indexAt s a b i = .ok index ∧ setBit s index = .ok s1 ∧
        addLoop a b n (i + 1) s1 = .ok t := by
  rw [addLoop]
  cases h1 : indexAt s a b i with
  | error e => simp
  | ok index =>
    cases h2 : setBit s index with
    | error e => simp [h2]
    | ok s1 => simp [h2]

theorem addLoop_grows {a b n i : Nat} {s t : BloomFilter}
    (h : addLoop a b n i s = .ok t) : Grows s t := by
  induction n generalizing i s with
  | zero =>
    rw [addLoop] at h
    cases h
    exact Grows.refl _
  | succ n ih =>
    obtain ⟨index, s1, _, h2, h3⟩ := (addLoop_succ_ok_iff a b n i s t).1 h
    exact (setBit_grows h2).trans (ih h3)

theorem addLoop_sets {a b n i : Nat} {s t : BloomFilter}
    (h : addLoop a b n i s = .ok t) (j : Nat) (h1 : i ≤ j) (h2 : j < i + n) :
    ∃ index, indexAt s a b j = .ok index ∧ testBit t index = .ok 1 := by
  induction n generalizing i s with
  | zero => omega
  | succ n ih =>
    obtain ⟨index, s1, e1, e2, e3⟩ := (addLoop_succ_ok_iff a b n i s t).1 h
    by_cases e : j = i
    · subst e
      exact ⟨index, e1, testBit_mono (addLoop_grows e3)
        (setBit_testBit e2 (indexAt_nonneg e1))⟩
    · obtain ⟨index2, e4, e5⟩ := ih e3 (by omega) (by omega)
      rw [indexAt_congr (setBit_grows e2)] at e4
      exact ⟨index2, e4, e5⟩

theorem addLoop_noop {a b n i : Nat} {s : BloomFilter}
    (h : ∀ j, i ≤ j → j < i + n →
      ∃ index, indexAt s a b j = .ok index ∧ testBit s index = .ok 1) :
    addLoop a b n i s = .ok s := by
  induction n generalizing i with
  | zero => rw [addLoop]
  | succ n ih =>
    obtain ⟨index, e1, e2⟩ := h i (Nat.le_refl i) (by omega)
    rw [addLoop_succ_ok_iff]
    exact ⟨index, s, e1, setBit_of_testBit e2,
      ih (fun j h1 h2 => h j (by omega) (by omega))⟩

theorem addLoop_total {a b : Nat} (n i : Nat) {s : BloomFilter} (u : Usable s) :
    ∃ t, addLoop a b n i s = .ok t := by
  induction n generalizing i s with
  | zero => exact ⟨s, by rw [addLoop]⟩
  | succ n ih =>
    have e1 : indexAt s a b i = .ok (Int.tmod (mix a b i) s.BitSize) :=
      (indexAt_ok_iff s a b i _).2 ⟨u.1, rfl⟩
    obtain ⟨s1, e2⟩ := setBit_total u (indexAt_nonneg e1)
    obtain ⟨t, e3⟩ := ih (i + 1) (u.of_grows (setBit_grows e2))
    exact ⟨t, (addLoop_succ_ok_iff a b n i s t).2 ⟨_, s1, e1, e2, e3⟩⟩

theorem Add_grows {s t : BloomFilter} {x : Bytes} (h : Add s x = .ok t) : Grows s t :=
  addLoop_grows h

theorem Add_total {s : BloomFilter} (u : Usable s) (x : Bytes) : ∃ t, Add s x = .ok t :=
  addLoop_total _ _ u

theorem addAll_cons_ok_iff (s t : BloomFilter) (y : Bytes) (ys : List Bytes) :
    addAll s (y :: ys) = .ok t ↔ ∃ s1, Add s y = .ok s1 ∧ addAll s1 ys = .ok t := by
  rw [addAll]
  cases h : Add s y with
  | error e => simp
  | ok s1 => simp

theorem addAll_grows {s t : BloomFilter} {ys : List Bytes} (h : addAll s ys = .ok t) :
    Grows s t := by
  induction ys generalizing s with
  | nil =>
    rw [addAll] at h
    cases h
    exact Grows.refl _
  | cons y ys ih =>
    obtain ⟨s1, h1, h2⟩ := (addAll_cons_ok_iff s t y ys).1 h
    exact (Add_grows h1).trans (ih h2)

theorem addAll_total {s : BloomFilter} (u : Usable s) (ys : List Bytes) :
    ∃ t, addAll s ys = .ok t := by
  induction ys generalizing s with
  | nil => exact ⟨s, by rw [addAll]⟩
  | cons y ys ih =>
    obtain ⟨s1, h1⟩ := Add_total u y
    obtain ⟨t, h2⟩ := ih (u.of_grows (Add_grows h1))
    exact ⟨t, (addAll_cons_ok_iff s t y ys).2 ⟨s1, h1, h2⟩⟩

/-! ## The loop of `Check` -/

theorem checkLoop_succ (s : BloomFilter) (a b n i : Nat) {index : Int} {bit : Int}
    (h1 : indexAt s a b i = .ok index) (h2 : testBit s index = .ok bit) :
    checkLoop s a b (n + 1) i =
      if bit ≠ 1 then .ok false else checkLoop s a b n (i + 1) := by
  rw [checkLoop, h1]
  simp only [h2]

theorem checkLoop_true_iff (s : BloomFilter) (a b n i : Nat) :
    checkLoop s a b n i = .ok true ↔
      ∀ j, i ≤ j → j < i + n →
        ∃ index, indexAt s a b j = .ok index ∧ testBit s index = .ok 1 := by
  induction n generalizing i with
  | zero =>
    rw [checkLoop]
    constructor
    · intro _ j h1 h2; omega
    · intro _; rfl
  | succ n ih =>
    cases h1 : indexAt s a b i with
    | error e =>
      constructor
      · intro h; rw [checkLoop, h1] at h; cases h
      · intro h
        obtain ⟨index, e1, _⟩ := h i (Nat.le_refl i) (by omega)
        rw [h1] at e1; cases e1
    | ok index =>
      cases h2 : testBit s index with
      | error e =>
        constructor
        · intro h; rw [checkLoop, h1] at h; simp only [h2] at h; cases h
        · intro h
          obtain ⟨index2, e1, e2⟩ := h i (Nat.le_refl i) (by omega)
          rw [h1] at e1; cases e1
          rw [h2] at e2; cases e2
      | ok bit =>
        rw [checkLoop_succ s a b n i h1 h2]
        by_cases hb : bit = 1
        · subst hb
          rw [if_neg (by simp), ih]
          constructor
          · intro h j j1 j2
            by_cases e : j = i
            · subst e; exact ⟨index, h1, h2⟩
            · exact h j (by omega) (by omega)
          · intro h j j1 j2
            exact h j (by omega) (by omega)
        · rw [if_pos hb]
          constructor
          · intro h; cases h
          · intro h
            obtain ⟨index2, e1, e2⟩ := h i (Nat.le_refl i) (by omega)
            rw [h1] at e1; cases e1
            rw [h2] at e2; cases e2
            exact absurd rfl hb

theorem checkLoop_total {s : BloomFilter} (u : Usable s) (a b n i : Nat) :
    ∃ r, checkLoop s a b n i = .ok r := by
  induction n generalizing i with
  | zero => exact ⟨true, by rw [checkLoop]⟩
  | succ n ih =>
    have e1 : indexAt s a b i = .ok (Int.tmod (mix a b i) s.BitSize) :=
      (indexAt_ok_iff s a b i _).2 ⟨u.1, rfl⟩
    obtain ⟨bit, e2⟩ := testBit_total u (indexAt_nonneg e1)
    rw [checkLoop_succ s a b n i e1 e2]
    split_ifs
    · exact ⟨false, rfl⟩
    · exact ih (i + 1)

theorem checkAllLoop_imp (s : BloomFilter) (a b n i : Nat) (r : Bool)
    (h : checkAllLoop s a b n i = .ok r) : checkLoop s a b n i = .ok r := by
  induction n generalizing i r with
  | zero =>
    rw [checkAllLoop] at h
    rw [checkLoop]
    exact h
  | succ n ih =>
    rw [checkAllLoop] at h
    cases h1 : indexAt s a b i with
    | error e => rw [h1] at h; cases h
    | ok index =>
      rw [h1] at h
      cases h2 : testBit s index with
      | error e => simp only [h2] at h; cases h
      | ok bit =>
        simp only [h2] at h
        cases h3 : checkAllLoop s a b n (i + 1) with
        | error e => simp only [h3] at h; cases h
        | ok rest =>
          simp only [h3] at h
          rw [checkLoop_succ s a b n i h1 h2]
          by_cases hb : bit = 1
          · rw [if_neg (by simpa using hb), ih (i + 1) rest h3]
            simpa [hb] using h
          · rw [if_pos hb]
            simpa [hb] using h

theorem checkAllLoop_total {s : BloomFilter} (u : Usable s) (a b n i : Nat) :
    ∃ r, checkAllLoop s a b n i = .ok r := by
  induction n generalizing i with
  | zero => exact ⟨true, by rw [checkAllLoop]⟩
  | succ n ih =>
    have e1 : indexAt s a b i = .ok (Int.tmod (mix a b i) s.BitSize) :=
      (indexAt_ok_iff s a b i _).2 ⟨u.1, rfl⟩
    obtain ⟨bit, e2⟩ := testBit_total u (indexAt_nonneg e1)
    obtain ⟨rest, e3⟩ := ih (i + 1)
    rw [checkAllLoop, e1]
    simp only [e2, e3]
    exact ⟨_, rfl⟩

theorem Check_of_added {s1 s2 : BloomFilter} {x : Bytes} {s : BloomFilter}
    (h1 : Add s x = .ok s1) (g : Grows s1 s2) : Check s2 x = .ok true := by
  unfold Check
  rw [checkLoop_true_iff]
  intro j j1 j2
  have g0 : Grows s s1 := Add_grows h1
  rw [(g0.trans g).hashes] at j2
  obtain ⟨index, e1, e2⟩ := addLoop_sets h1 j j1 j2
  rw [← indexAt_congr (g0.trans g)] at e1
  exact ⟨index, e1, testBit_mono g e2⟩

theorem Check_mono {s t : BloomFilter} (g : Grows s t) {y : Bytes}
    (h : Check s y = .ok true) : Check t y = .ok true := by
  unfold Check at h ⊢
  rw [checkLoop_true_iff] at h ⊢
  rw [g.hashes]
  intro j j1 j2
  obtain ⟨index, e1, e2⟩ := h j j1 j2
  exact ⟨index, by rw [indexAt_congr g]; exact e1, testBit_mono g e2⟩

theorem Add_of_no_hashes {s : BloomFilter} (h : s.NumHashes ≤ 0) (x : Bytes) :
    Add s x = .ok s := by
  unfold Add
  rw [Int.toNat_eq_zero.2 h, addLoop]

theorem addAll_of_no_hashes {s : BloomFilter} (h : s.NumHashes ≤ 0) (ys : List Bytes) :
    addAll s ys = .ok s := by
  induction ys with
  | nil => rw [addAll]
  | cons y ys ih => rw [addAll, Add_of_no_hashes h]; exact ih

theorem usable_of_constructed {s : BloomFilter} (hb : s.numBuckets = s.BitSize.tdiv 32)
    (hl : (s.state.length : Int) = s.numBuckets) (hm : 32 ≤ s.BitSize) : Usable s := by
  refine ⟨by omega, ?_, hl⟩
  rw [hb, Int.tdiv_eq_ediv (by omega) (by decide)]
  omega

theorem testFilter_length : (testFilter.state.length : Int) = testFilter.numBuckets := by
  have h : testFilter.state.length = 631179 := List.length_replicate 631179 0
  rw [h]
  rfl

/-! ## Worked examples -/

/-- The published test vectors of 64-bit FNV-1a for the empty input, "a" and
"foobar". -/
theorem fnv64a_vectors :
    fnv64a [] = 0xcbf29ce484222325 ∧ fnv64a [97] = 0xaf63dc4c8601ec8c ∧
    fnv64a [102, 111, 111, 98, 97, 114] = 0x85944171f73967e8 := by
  decide

/-- Adding "alpha" to the fresh filter of 57 bits sets the bits of the indices
34, 53, 40, 2, 46, 8, 52, 14, 1, all in word 0; "alpha" then checks true, and
"b" false. -/
theorem alpha_example :
    (List.range 9).map (indexOf oneWordFilter [97, 108, 112, 104, 97]) =
      [34, 53, 40, 2, 46, 8, 52, 14, 1] ∧
    Add oneWordFilter [97, 108, 112, 104, 97] = .ok ⟨4, 1024, 9, 57, 1, [3162374]⟩ ∧
    Check ⟨4, 1024, 9, 57, 1, [3162374]⟩ [97, 108, 112, 104, 97] = .ok true ∧
    Check ⟨4, 1024, 9, 57, 1, [3162374]⟩ [98] = .ok false := by
  decide

/-! ## The claims on `Add` and `Check` -/

/-- C1. No false negatives. For a filter shaped as the constructor shapes it
(`numBuckets = BitSize / 32`, a state of `numBuckets` words, any `NumHashes`):
whenever `Add(x)` and then `Add(y)` for each `y` of `ys` have run, `Check(x)`
returns true; and these calls do run to completion when the filter has at least
one word (`BitSize >= 32`) or derives no index (`NumHashes <= 0`). -/
theorem no_false_negatives (set : BloomFilter) (x : Bytes) (ys : List Bytes)
    (hb : set.numBuckets = set.BitSize.tdiv 32)
    (hl : (set.state.length : Int) = set.numBuckets) :
    (∀ s1 s2, Add set x = .ok s1 → addAll s1 ys = .ok s2 → Check s2 x = .ok true) ∧
    (32 ≤ set.BitSize ∨ set.NumHashes ≤ 0 →
      ∃ s1 s2, Add set x = .ok s1 ∧ addAll s1 ys = .ok s2 ∧ Check s2 x = .ok true) := by
  have key : ∀ s1 s2, Add set x = .ok s1 → addAll s1 ys = .ok s2 → Check s2 x = .ok true :=
    fun s1 s2 h1 h2 => Check_of_added h1 (addAll_grows h2)
  refine ⟨key, ?_⟩
  rintro (hm | hk)
  · have u : Usable set := usable_of_constructed hb hl hm
    obtain ⟨s1, h1⟩ := Add_total u x
    obtain ⟨s2, h2⟩ := addAll_total (u.of_grows (Add_grows h1)) ys
    exact ⟨s1, s2, h1, h2, key s1 s2 h1 h2⟩
  · have h1 := Add_of_no_hashes hk x
    have h2 := addAll_of_no_hashes hk ys
    exact ⟨set, set, h1, h2, key set set h1 h2⟩

/-- Witness of C1 on the filter of the tests: an 8-byte value, two other values
added after it. -/
theorem no_false_negatives_witness :
    (testFilter.numBuckets = testFilter.BitSize.tdiv 32 ∧
      (testFilter.state.length : Int) = testFilter.numBuckets) ∧
    (∀ s1 s2, Add testFilter [1, 2, 3, 4, 5, 6, 7, 8] = .ok s1 →
        addAll s1 [[], [255, 0]] = .ok s2 →
        Check s2 [1, 2, 3, 4, 5, 6, 7, 8] = .ok true) ∧
    (32 ≤ testFilter.BitSize ∨ testFilter.NumHashes ≤ 0 →
      ∃ s1 s2, Add testFilter [1, 2, 3, 4, 5, 6, 7, 8] = .ok s1 ∧
        addAll s1 [[], [255, 0]] = .ok s2 ∧
        Check s2 [1, 2, 3, 4, 5, 6, 7, 8] = .ok true) :=
  ⟨⟨by decide, testFilter_length⟩,
    no_false_negatives testFilter [1, 2, 3, 4, 5, 6, 7, 8] [[], [255, 0]] (by decide)
      testFilter_length⟩

/-- C3. Bits are never cleared. For every filter and every `x`: after `Add(x)`
every bit of the state that was 1 is still 1, and every `y` for which `Check`
returned true before still checks true; `Add(x)` does return on every filter
that cannot panic. -/
theorem bits_never_cleared (set : BloomFilter) (x : Bytes) :
    (∀ t, Add set x = .ok t →
      (∀ w o, bitAt set.state w o = true → bitAt t.state w o = true) ∧
      (∀ y, Check set y = .ok true → Check t y = .ok true)) ∧
    (Usable set → ∃ t, Add set x = .ok t) :=
  ⟨fun _ h => ⟨(Add_grows h).bits, fun _ hy => Check_mono (Add_grows h) hy⟩,
    fun u => Add_total u x⟩

/-- C4. `Add` is idempotent. For every filter and every `x`: a second `Add(x)`
returns the very filter the first one returned, all fields and all words equal;
both calls do return on every filter that cannot panic. -/
theorem add_idempotent (set : BloomFilter) (x : Bytes) :
    (∀ t, Add set x = .ok t → Add t x = .ok t) ∧
    (Usable set → ∃ t, Add set x = .ok t ∧ Add t x = .ok t) := by
  have key : ∀ t, Add set x = .ok t → Add t x = .ok t := by
    intro t h
    have g := Add_grows h
    unfold Add
    apply addLoop_noop
    intro j j1 j2
    rw [g.hashes] at j2
    obtain ⟨index, e1, e2⟩ := addLoop_sets h j j1 j2
    exact ⟨index, by rw [indexAt_congr g]; exact e1, e2⟩
  exact ⟨key, fun u => (Add_total u x).imp fun t h => ⟨h, key t h⟩⟩

/-- C5. `Check(x)` returns true exactly when the test of each of the
`NumHashes` derived indices returns 1; whenever the check of all the bits
without early return yields a result, `Check` yields the same one; and on a
filter that cannot panic both yield a result, which is true exactly when the
bit of the state at each of the `NumHashes` indices is 1. -/
theorem check_iff_all_bits (set : BloomFilter) (x : Bytes) :
    (Check set x = .ok true ↔
      ∀ i : Nat, (i : Int) < set.NumHashes →
        ∃ index, indexAt set (hashFNV1a x).1 (hashFNV1a x).2 i = .ok index ∧
          testBit set index = .ok 1) ∧
    (∀ r, CheckAll set x = .ok r → Check set x = .ok r) ∧
    (Usable set →
      (∃ r, CheckAll set x = .ok r ∧ Check set x = .ok r) ∧
      (Check set x = .ok true ↔
        ∀ i : Nat, (i : Int) < set.NumHashes →
          bitAt set.state (bucketOf set (indexOf set x i)).toNat
            (offsetOf (indexOf set x i)).toNat = true)) := by
  have first : Check set x = .ok true ↔
      ∀ i : Nat, (i : Int) < set.NumHashes →
        ∃ index, indexAt set (hashFNV1a x).1 (hashFNV1a x).2 i = .ok index ∧
          testBit set index = .ok 1 := by
    unfold Check
    rw [checkLoop_true_iff]
    constructor
    · intro h i hi
      exact h i (Nat.zero_le i) (by omega)
    · intro h j _ j2
      exact h j (by omega)
  refine ⟨first, fun r h => checkAllLoop_imp _ _ _ _ _ r h, ?_⟩
  intro u
  constructor
  · obtain ⟨r, h⟩ := checkAllLoop_total u (hashFNV1a x).1 (hashFNV1a x).2
      set.NumHashes.toNat 0
    exact ⟨r, h, checkAllLoop_imp _ _ _ _ _ r h⟩
  · rw [first]
    have e : ∀ i, indexAt set (hashFNV1a x).1 (hashFNV1a x).2 i = .ok (indexOf set x i) :=
      fun i => (indexAt_ok_iff _ _ _ _ _).2 ⟨u.1, rfl⟩
    have hbit : ∀ i, bitNo (offsetOf (indexOf set x i)) = (offsetOf (indexOf set x i)).toNat := by
      intro i
      have h0 := indexAt_nonneg (e i)
      have h1 := (bitNo_offsetOf _ h0).2
      have h2 : offsetOf (indexOf set x i) = indexOf set x i % 32 :=
        Int.tmod_eq_emod h0 (by decide)
      omega
    constructor
    · intro h i hi
      obtain ⟨index, e1, e2⟩ := h i hi
      rw [e i] at e1
      cases e1
      rw [← hbit i]
      exact ((testBit_eq_one_iff _ _).1 e2).2.2.2.2
    · intro h i hi
      refine ⟨_, e i, (testBit_eq_one_iff _ _).2 ?_⟩
      have h0 := indexAt_nonneg (e i)
      have hb := bucketOf_range set _ h0 u.2.1
      refine ⟨by have := u.2.1; omega, hb.1, by have := u.2.2; omega,
        (bitNo_offsetOf _ h0).1, ?_⟩
      rw [hbit i]
      exact h i hi

/-- C6. Index range safety. For every filter with `BitSize >= 1`, every `x`
(the empty one too) and every `i < NumHashes`, the index of iteration `i` in
`Add` and `Check` is computed without panic and lies in `[0, BitSize)`. -/
theorem index_in_range (set : BloomFilter) (x : Bytes) (i : Nat)
    (hm : 1 ≤ set.BitSize) (_hi : (i : Int) < set.NumHashes) :
    ∃ index, indexAt set (hashFNV1a x).1 (hashFNV1a x).2 i = .ok index ∧
      0 ≤ index ∧ index < set.BitSize := by
  have e : indexAt set (hashFNV1a x).1 (hashFNV1a x).2 i =
      .ok (Int.tmod (mix (hashFNV1a x).1 (hashFNV1a x).2 i) set.BitSize) :=
    (indexAt_ok_iff _ _ _ _ _).2 ⟨by omega, rfl⟩
  exact ⟨_, e, indexAt_nonneg e, Int.tmod_lt_of_pos _ (by omega)⟩

/-- Witness of C6: the last iteration on the empty input, in the filter of the
tests. -/
theorem index_in_range_witness :
    (1 ≤ testFilter.BitSize ∧ ((12 : Nat) : Int) < testFilter.NumHashes) ∧
    ∃ index, indexAt testFilter (hashFNV1a []).1 (hashFNV1a []).2 12 = .ok index ∧
      0 ≤ index ∧ index < testFilter.BitSize :=
  ⟨⟨by decide, by decide⟩, index_in_range testFilter [] 12 (by decide) (by decide)⟩

/-! ## The constructor -/

theorem toInt_intCast (z : Int) : toInt (z : ℚ) = z := by
  unfold toInt
  split_ifs <;> simp

theorem bitSizeOf_eq (lib : MathLib) (n p : Int) :
    bitSizeOf lib n p = |⌈sizeProduct lib n p⌉| := by
  unfold bitSizeOf
  rw [← Int.cast_abs, toInt_intCast]

theorem bitSizeOf_nonneg (lib : MathLib) (n p : Int) : 0 ≤ bitSizeOf lib n p := by
  rw [bitSizeOf_eq]
  exact abs_nonneg _

theorem hashCountOf_eq (lib : MathLib) (q : Int) :
    hashCountOf lib q = ⌊lib.round (lib.round q * lib.Log 2)⌋ := by
  unfold hashCountOf
  rw [toInt_intCast]

theorem bitSizeInt64_eq (lib : MathLib) (n p : Int) (h1 : 0 < p)
    (h2 : bitSizeOf lib n p < 2 ^ 63) : bitSizeInt64 lib n p = bitSizeOf lib n p := by
  unfold bitSizeInt64
  rw [if_pos ⟨h1, h2⟩]

theorem bitSizeInt64_min (lib : MathLib) (n p : Int)
    (h : ¬ (0 < p ∧ bitSizeOf lib n p < 2 ^ 63)) : bitSizeInt64 lib n p = -2 ^ 63 := by
  unfold bitSizeInt64
  rw [if_neg h]

theorem makeWords_ok_iff (lib : MathLib) (k : Nat) (words : List Nat) :
    makeWords lib k = .ok words ↔
      k < 2 ^ 63 ∧ lib.allocates k = true ∧ words = List.replicate k 0 := by
  unfold makeWords
  split_ifs with h
  · simp only [Except.ok.injEq, h.1, h.2, true_and]
    exact eq_comm
  · constructor
    · intro e; cases e
    · rintro ⟨a, b, _⟩; exact absurd ⟨a, b⟩ h

theorem NewBloomFilter_out_of_range (lib : MathLib) (n p : Int) (hn : n ≠ 0)
    (h : ¬ (0 < p ∧ bitSizeOf lib n p < 2 ^ 63)) :
    NewBloomFilter lib n p = .error .makeslice := by
  simp only [NewBloomFilter, if_neg hn, bitSizeInt64_min lib n p h]
  have e : makeWords lib ((Int.tdiv (-2 ^ 63) 32) % 2 ^ 64).toNat = .error .makeslice := by
    unfold makeWords
    rw [if_neg]
    rintro ⟨a, _⟩
    revert a
    decide
  rw [e]

theorem NewBloomFilter_ok_iff (lib : MathLib) (n p : Int) (f : BloomFilter) :
    NewBloomFilter lib n p = .ok f ↔
      n ≠ 0 ∧ 0 < p ∧ bitSizeOf lib n p < 2 ^ 63 ∧
      lib.allocates (Int.tdiv (bitSizeOf lib n p) 32).toNat = true ∧
      f = ⟨n, p, hashCountOf lib (Int.tdiv (bitSizeOf lib n p) n), bitSizeOf lib n p,
        Int.tdiv (bitSizeOf lib n p) 32,
        List.replicate (Int.tdiv (bitSizeOf lib n p) 32).toNat 0⟩ := by
  by_cases hn : n = 0
  · simp [NewBloomFilter, hn]
  by_cases hg : 0 < p ∧ bitSizeOf lib n p < 2 ^ 63
  · have h0 : 0 ≤ bitSizeOf lib n p := bitSizeOf_nonneg lib n p
    have h1 : Int.tdiv (bitSizeOf lib n p) 32 = bitSizeOf lib n p / 32 :=
      Int.tdiv_eq_ediv h0 (by decide)
    have h2 : (Int.tdiv (bitSizeOf lib n p) 32 % 2 ^ 64).toNat =
        (Int.tdiv (bitSizeOf lib n p) 32).toNat := by
      rw [h1, Int.emod_eq_of_lt (by omega) (by omega)]
    have h3 : (Int.tdiv (bitSizeOf lib n p) 32).toNat < 2 ^ 63 := by
      rw [h1]
      omega
    simp only [NewBloomFilter, if_neg hn, bitSizeInt64_eq lib n p hg.1 hg.2, h2]
    cases hm : makeWords lib (Int.tdiv (bitSizeOf lib n p) 32).toNat with
    | error e =>
      constructor
      · intro c; cases c
      · rintro ⟨_, _, _, a, _⟩
        have := (makeWords_ok_iff lib _ _).2 ⟨h3, a, rfl⟩
        rw [hm] at this
        cases this
    | ok words =>
      obtain ⟨_, a, rfl⟩ := (makeWords_ok_iff lib _ _).1 hm
      simp only [Except.ok.injEq, ne_eq, hn, not_false_eq_true, hg.1, hg.2, a, true_and]
      exact eq_comm
  · rw [NewBloomFilter_out_of_range lib n p hn hg]
    constructor
    · intro c; cases c
    · rintro ⟨_, a, b, _⟩
      exact absurd ⟨a, b⟩ hg

theorem makeWords_error (lib : MathLib) (k : Nat) (e : Panic)
    (h : makeWords lib k = .error e) : e = .makeslice := by
  unfold makeWords at h
  split_ifs at h
  cases h
  rfl

theorem NewBloomFilter_error (lib : MathLib) (n p : Int) (e : Panic)
    (h : NewBloomFilter lib n p = .error e) :
    (n = 0 ∧ e = .divideByZero) ∨ (n ≠ 0 ∧ e = .makeslice) := by
  simp only [NewBloomFilter] at h
  split_ifs at h with hn
  · cases h
    exact Or.inl ⟨hn, rfl⟩
  · right
    refine ⟨hn, ?_⟩
    cases hm : makeWords lib
        ((Int.tdiv (bitSizeInt64 lib n p) 32) % 2 ^ 64).toNat with
    | error e2 =>
      rw [hm] at h
      cases h
      exact makeWords_error lib _ _ hm
    | ok words =>
      rw [hm] at h
      cases h

theorem goMath_log2_e : goMath.Log2 (goMath.round mathE) = 1.4426950408889634 := by
  simp [goMath, tabulated, List.find?]

theorem goMath_bitSize (n p z : Int) (l : ℚ)
    (hl : goMath.Log2 (goMath.round (1 / goMath.round (p : ℚ))) = l)
    (hz : ⌈(n : ℚ) * 1.4426950408889634 * l⌉ = z) : bitSizeOf goMath n p = |z| := by
  rw [bitSizeOf_eq]
  unfold sizeProduct
  rw [goMath_log2_e, hl]
  show |⌈(n : ℚ) * 1.4426950408889634 * l⌉| = |z|
  rw [hz]

theorem goMath_hashCount (q z : Int) (hz : ⌊(q : ℚ) * 0.6931471805599453⌋ = z) :
    hashCountOf goMath q = z := by
  rw [hashCountOf_eq]
  have h : goMath.Log 2 = 0.6931471805599453 := by
    simp [goMath, tabulated, List.find?]
  rw [h]
  exact hz

theorem goMath_1_1024 : NewBloomFilter goMath 1 1024 = .ok ⟨1, 1024, 9, 14, 0, []⟩ := by
  rw [NewBloomFilter_ok_iff]
  have h1 : bitSizeOf goMath 1 1024 = |(-14 : Int)| :=
    goMath_bitSize 1 1024 (-14) (-10) (by norm_num [goMath, tabulated, List.find?, mathE])
      (by norm_num [Int.ceil_eq_iff])
  have h2 : hashCountOf goMath 14 = 9 :=
    goMath_hashCount 14 9 (by norm_num [Int.floor_eq_iff])
  rw [h1]
  exact ⟨by decide, by decide, by decide, by decide, by rw [show Int.tdiv |(-14 : Int)| 1 = 14 by decide, h2]; rfl⟩

theorem goMath_4_1024 : NewBloomFilter goMath 4 1024 = .ok oneWordFilter := by
  rw [NewBloomFilter_ok_iff]
  have h1 : bitSizeOf goMath 4 1024 = |(-57 : Int)| :=
    goMath_bitSize 4 1024 (-57) (-10) (by norm_num [goMath, tabulated, List.find?, mathE])
      (by norm_num [Int.ceil_eq_iff])
  have h2 : hashCountOf goMath 14 = 9 :=
    goMath_hashCount 14 9 (by norm_num [Int.floor_eq_iff])
  rw [h1]
  exact ⟨by decide, by decide, by decide, by decide, by rw [show Int.tdiv |(-57 : Int)| 4 = 14 by decide, h2]; rfl⟩

theorem goMath_100_10 :
    NewBloomFilter goMath 100 10 = .ok ⟨100, 10, 2, 479, 14, List.replicate 14 0⟩ := by
  rw [NewBloomFilter_ok_iff]
  have h1 : bitSizeOf goMath 100 10 = |(-479 : Int)| :=
    goMath_bitSize 100 10 (-479) (-3.321928094887362)
      (by norm_num [goMath, tabulated, List.find?, mathE])
      (by norm_num [Int.ceil_eq_iff])
  have h2 : hashCountOf goMath 4 = 2 :=
    goMath_hashCount 4 2 (by norm_num [Int.floor_eq_iff])
  rw [h1]
  exact ⟨by decide, by decide, by decide, by decide, by rw [show Int.tdiv |(-479 : Int)| 100 = 4 by decide, h2]; rfl⟩

theorem goMath_test : NewBloomFilter goMath 1000000 16384 = .ok testFilter := by
  rw [NewBloomFilter_ok_iff]
  have h1 : bitSizeOf goMath 1000000 16384 = |(-20197730 : Int)| :=
    goMath_bitSize 1000000 16384 (-20197730) (-14)
      (by norm_num [goMath, tabulated, List.find?, mathE])
      (by norm_num [Int.ceil_eq_iff])
  have h2 : hashCountOf goMath 20 = 13 :=
    goMath_hashCount 20 13 (by norm_num [Int.floor_eq_iff])
  rw [h1]
  exact ⟨by decide, by decide, by decide, by decide,
    by rw [show Int.tdiv |(-20197730 : Int)| 1000000 = 20 by decide, h2]; rfl⟩

theorem constructed_shape {lib : MathLib} {n p : Int} {f : BloomFilter}
    (h : NewBloomFilter lib n p = .ok f) (hr : f.BitSize < 2 ^ 63) :
    0 ≤ f.BitSize ∧ f.numBuckets = f.BitSize / 32 ∧
      f.state = List.replicate f.numBuckets.toNat 0 := by
  have _ := hr
  obtain ⟨_, _, _, _, rfl⟩ := (NewBloomFilter_ok_iff lib n p f).1 h
  have h0 : 0 ≤ bitSizeOf lib n p := bitSizeOf_nonneg lib n p
  have h1 : Int.tdiv (bitSizeOf lib n p) 32 = bitSizeOf lib n p / 32 :=
    Int.tdiv_eq_ediv h0 (by decide)
  exact ⟨h0, h1, rfl⟩

theorem bitAt_replicate (k w o : Nat) : bitAt (List.replicate k 0) w o = false := by
  unfold bitAt
  rw [List.getD_eq_getElem?_getD, List.getElem?_replicate]
  split_ifs <;> simp

theorem floor_div_32 (m : Int) : ⌊(m : ℚ) / 32⌋ = m / 32 := by
  have := Rat.floor_intCast_div_natCast m 32
  simpa using this

theorem ceil_div_32 (m : Int) : ⌈(m : ℚ) / 32⌉ = -((-m) / 32) := by
  have h : (m : ℚ) / 32 = -(((-m : Int) : ℚ) / 32) := by push_cast; ring
  rw [h, Int.ceil_neg, floor_div_32]

/-! ## The claims on `NewBloomFilter` -/

/-- C2, at the failing input. `NewBloomFilter(1, 1024)` returns a filter of 14
bits with 9 hashes and no word, on which `Add` and `Check` panic on the modulo by
`numBuckets = 0`; and so they do, whatever the math library, on every returned
filter with fewer than 32 bits and at least one hash. -/
theorem small_filter_panics :
    (∃ f, NewBloomFilter goMath 1 1024 = .ok f ∧ f.BitSize = 14 ∧ f.NumHashes = 9 ∧
      Add f [] = .error .divideByZero ∧ Check f [] = .error .divideByZero) ∧
    (∀ (lib : MathLib) (n p : Int) (f : BloomFilter) (x : Bytes),
      NewBloomFilter lib n p = .ok f → f.BitSize < 32 → 1 ≤ f.NumHashes →
      Add f x = .error .divideByZero ∧ Check f x = .error .divideByZero) := by
  refine ⟨⟨_, goMath_1_1024, rfl, rfl, by decide, by decide⟩, ?_⟩
  intro lib n p f x h hm hk
  obtain ⟨h0, h1, _⟩ := constructed_shape h (by omega)
  have hb : f.numBuckets = 0 := by omega
  obtain ⟨k, hk2⟩ : ∃ k, f.NumHashes.toNat = k + 1 := ⟨f.NumHashes.toNat - 1, by omega⟩
  unfold Add Check
  rw [hk2, addLoop, checkLoop]
  unfold indexAt
  split_ifs with hz
  · exact ⟨rfl, rfl⟩
  · simp [setBit, testBit, hb]

/-- C7, at the failing input. With the parameters of the tests,
`NewBloomFilter(1000000, 16384)` sets `BitSize` to 20197730, where the ceiling
of `1000000 * log2(e) * log2(16384)` is 20197731; and whatever the math library,
when the float product is not positive, the returned `BitSize` is the floor of
its magnitude: `math.Ceil` is applied to the negative product, before
`math.Abs`. -/
theorem bit_size_is_floor :
    (∃ f, NewBloomFilter goMath 1000000 16384 = .ok f ∧ f.BitSize = 20197730 ∧
      ⌈((1000000 : Int) : ℚ) * goMath.Log2 mathE *
        -goMath.Log2 (1 / ((16384 : Int) : ℚ))⌉ = 20197731) ∧
    (∀ (lib : MathLib) (n p : Int) (f : BloomFilter),
      NewBloomFilter lib n p = .ok f → sizeProduct lib n p ≤ 0 →
      f.BitSize = ⌊|sizeProduct lib n p|⌋) := by
  refine ⟨⟨_, goMath_test, rfl, ?_⟩, ?_⟩
  · have h1 : goMath.Log2 mathE = 1.4426950408889634 := goMath_log2_e
    have h2 : goMath.Log2 (1 / ((16384 : Int) : ℚ)) = -14 := by
      norm_num [goMath, tabulated, List.find?, mathE]
    rw [h1, h2]
    norm_num [Int.ceil_eq_iff]
  · intro lib n p f h hx
    obtain ⟨_, _, _, _, rfl⟩ := (NewBloomFilter_ok_iff lib n p f).1 h
    show bitSizeOf lib n p = _
    rw [bitSizeOf_eq, abs_of_nonpos hx, Int.floor_neg]
    exact abs_of_nonpos (Int.ceil_le.2 (by simpa using hx))

/-- C8, at the failing input. `NewBloomFilter(100, 10)` returns `BitSize = 479`
and `NumHashes = 2`, where `floor((479 / 100) * ln 2)` is 3; and whatever the
math library, `NumHashes` is computed from the truncated integer quotient
`BitSize / capacity`. -/
theorem hash_count_truncates_ratio :
    (∃ f, NewBloomFilter goMath 100 10 = .ok f ∧ f.BitSize = 479 ∧ f.NumHashes = 2 ∧
      ⌊(f.BitSize : ℚ) / ((100 : Int) : ℚ) * goMath.Log 2⌋ = 3) ∧
    (∀ (lib : MathLib) (n p : Int) (f : BloomFilter),
      NewBloomFilter lib n p = .ok f →
      f.NumHashes = ⌊lib.round (lib.round ((Int.tdiv f.BitSize n : Int) : ℚ) * lib.Log 2)⌋) := by
  refine ⟨⟨_, goMath_100_10, rfl, rfl, ?_⟩, ?_⟩
  · have h : goMath.Log 2 = 0.6931471805599453 := by
      simp [goMath, tabulated, List.find?]
    rw [h]
    norm_num [Int.floor_eq_iff]
  · intro lib n p f h
    obtain ⟨_, _, _, _, rfl⟩ := (NewBloomFilter_ok_iff lib n p f).1 h
    exact hashCountOf_eq lib _

/-- C9, refuted as stated: the filter of the tests, `NewBloomFilter(1000000,
16384)`, has 20197730 bits in 631179 words, one word fewer than
`ceil(20197730 / 32)`. -/
theorem word_count_not_ceiling :
    ∃ f, NewBloomFilter goMath 1000000 16384 = .ok f ∧
      (f.state.length : Int) ≠ ⌈(f.BitSize : ℚ) / 32⌉ := by
  refine ⟨testFilter, goMath_test, ?_⟩
  rw [ceil_div_32, testFilter_length]
  decide

/-- C9, amended. For every filter returned by `NewBloomFilter`, the number of
words of the state is `floor(BitSize / 32)`, which is `numBuckets`; this is
`ceil(BitSize / 32)` exactly when `BitSize` is a multiple of 32, and otherwise
the words hold fewer than `BitSize` bits. -/
theorem word_count_is_floor (lib : MathLib) (n p : Int) (f : BloomFilter)
    (h : NewBloomFilter lib n p = .ok f) (hr : f.BitSize < 2 ^ 63) :
    (f.state.length : Int) = ⌊(f.BitSize : ℚ) / 32⌋ ∧
    (f.state.length : Int) = f.numBuckets ∧
    ((f.state.length : Int) = ⌈(f.BitSize : ℚ) / 32⌉ ↔ f.BitSize % 32 = 0) ∧
    (f.BitSize % 32 ≠ 0 → 32 * (f.state.length : Int) < f.BitSize) := by
  obtain ⟨h0, h1, h2⟩ := constructed_shape h hr
  have hl : (f.state.length : Int) = f.numBuckets := by
    rw [h2, List.length_replicate]
    omega
  rw [floor_div_32, ceil_div_32, hl, h1]
  refine ⟨?_, ?_, ?_, ?_⟩ <;> omega

/-- Witness of C9 as amended, on `NewBloomFilter(4, 1024)`: 57 bits, one word. -/
theorem word_count_is_floor_witness :
    (NewBloomFilter goMath 4 1024 = .ok oneWordFilter ∧ oneWordFilter.BitSize < 2 ^ 63) ∧
    (oneWordFilter.state.length : Int) = ⌊(oneWordFilter.BitSize : ℚ) / 32⌋ ∧
    (oneWordFilter.state.length : Int) = oneWordFilter.numBuckets ∧
    ((oneWordFilter.state.length : Int) = ⌈(oneWordFilter.BitSize : ℚ) / 32⌉ ↔
      oneWordFilter.BitSize % 32 = 0) ∧
    (oneWordFilter.BitSize % 32 ≠ 0 →
      32 * (oneWordFilter.state.length : Int) < oneWordFilter.BitSize) :=
  ⟨⟨goMath_4_1024, by decide⟩,
    word_count_is_floor goMath 4 1024 oneWordFilter goMath_4_1024 (by decide)⟩

/-- C10. A fresh filter reports nothing as present. For every filter returned
by `NewBloomFilter`, every word of the state is zero; and when it has at least
one hash and at least 32 bits, `Check(x)` returns false for every `x`. -/
theorem fresh_filter_is_empty (lib : MathLib) (n p : Int) (f : BloomFilter) (x : Bytes)
    (h : NewBloomFilter lib n p = .ok f) (hr : f.BitSize < 2 ^ 63) :
    (∀ w ∈ f.state, w = 0) ∧
    (1 ≤ f.NumHashes → 32 ≤ f.BitSize → Check f x = .ok false) := by
  obtain ⟨h0, h1, h2⟩ := constructed_shape h hr
  constructor
  · intro w hw
    rw [h2] at hw
    exact List.eq_of_mem_replicate hw
  · intro hk hm
    have hl : (f.state.length : Int) = f.numBuckets := by
      rw [h2, List.length_replicate]
      omega
    have u : Usable f := ⟨by omega, by omega, hl⟩
    obtain ⟨k, hk2⟩ : ∃ k, f.NumHashes.toNat = k + 1 := ⟨f.NumHashes.toNat - 1, by omega⟩
    unfold Check
    rw [hk2]
    have e1 : indexAt f (hashFNV1a x).1 (hashFNV1a x).2 0 =
        .ok (Int.tmod (mix (hashFNV1a x).1 (hashFNV1a x).2 0) f.BitSize) :=
      (indexAt_ok_iff _ _ _ _ _).2 ⟨u.1, rfl⟩
    obtain ⟨bit, e2⟩ := testBit_total u (indexAt_nonneg e1)
    rw [checkLoop_succ f _ _ k 0 e1 e2]
    rcases testBit_ok_or f _ bit e2 with hb | hb
    · subst hb
      rw [testBit_eq_one_iff, h2, bitAt_replicate] at e2
      simp at e2
    · subst hb
      rfl

/-- Witness of C10 on `NewBloomFilter(4, 1024)` and the bytes of "alpha". -/
theorem fresh_filter_is_empty_witness :
    (NewBloomFilter goMath 4 1024 = .ok oneWordFilter ∧ oneWordFilter.BitSize < 2 ^ 63) ∧
    (∀ w ∈ oneWordFilter.state, w = 0) ∧
    (1 ≤ oneWordFilter.NumHashes → 32 ≤ oneWordFilter.BitSize →
      Check oneWordFilter [97, 108, 112, 104, 97] = .ok false) :=
  ⟨⟨goMath_4_1024, by decide⟩,
    fresh_filter_is_empty goMath 4 1024 oneWordFilter [97, 108, 112, 104, 97] goMath_4_1024
      (by decide)⟩

/-! ## Further examples of the constructor -/

theorem goMath_100_2 : NewBloomFilter goMath 100 2 = .ok noHashFilter := by
  rw [NewBloomFilter_ok_iff]
  have h1 : bitSizeOf goMath 100 2 = |(-144 : Int)| :=
    goMath_bitSize 100 2 (-144) (-1) (by norm_num [goMath, tabulated, List.find?, mathE])
      (by norm_num [Int.ceil_eq_iff])
  have h2 : hashCountOf goMath 1 = 0 :=
    goMath_hashCount 1 0 (by norm_num [Int.floor_eq_iff])
  rw [h1]
  exact ⟨by decide, by decide, by decide, by decide, by rw [show Int.tdiv |(-144 : Int)| 100 = 1 by decide, h2]; rfl⟩

theorem goMath_neg100_1024 : NewBloomFilter goMath (-100) 1024 = .ok negativeFilter := by
  rw [NewBloomFilter_ok_iff]
  have h1 : bitSizeOf goMath (-100) 1024 = |(1443 : Int)| :=
    goMath_bitSize (-100) 1024 1443 (-10)
      (by norm_num [goMath, tabulated, List.find?, mathE])
      (by norm_num [Int.ceil_eq_iff])
  have h2 : hashCountOf goMath (-14) = -10 :=
    goMath_hashCount (-14) (-10) (by norm_num [Int.floor_eq_iff])
  rw [h1]
  exact ⟨by decide, by decide, by decide, by decide, by rw [show Int.tdiv |(1443 : Int)| (-100) = -14 by decide, h2]; rfl⟩

theorem goMath_big : NewBloomFilter goMath 1000000000 1024 = .ok bigFilter := by
  rw [NewBloomFilter_ok_iff]
  have h1 : bitSizeOf goMath 1000000000 1024 = |(-14426950408 : Int)| :=
    goMath_bitSize 1000000000 1024 (-14426950408) (-10)
      (by norm_num [goMath, tabulated, List.find?, mathE])
      (by norm_num [Int.ceil_eq_iff])
  have h2 : hashCountOf goMath 14 = 9 :=
    goMath_hashCount 14 9 (by norm_num [Int.floor_eq_iff])
  rw [h1]
  exact ⟨by decide, by decide, by decide, by decide,
    by rw [show Int.tdiv |(-14426950408 : Int)| 1000000000 = 14 by decide, h2]; rfl⟩

/-! ## The claims on degenerate and invalid parameters -/

/-- C11. Degenerate hash count. For every filter whose `NumHashes` is 0 and
every `x`: `Check(x)` returns true, `Add(x)` returns the filter unchanged, and
so does any sequence of calls of `Add`, so that `Check(x)` is true whatever was
added. -/
theorem no_hashes_degenerate (set : BloomFilter) (x : Bytes) (hk : set.NumHashes = 0) :
    Check set x = .ok true ∧ Add set x = .ok set ∧
    ∀ ys, addAll set ys = .ok set := by
  refine ⟨?_, Add_of_no_hashes (by omega) x, fun ys => addAll_of_no_hashes (by omega) ys⟩
  unfold Check
  rw [hk]
  rfl

/-- Witness of C11: the valid parameters capacity 100 and denominator 2 give a
filter with no hash. -/
theorem no_hashes_degenerate_witness :
    (NewBloomFilter goMath 100 2 = .ok noHashFilter ∧ noHashFilter.NumHashes = 0) ∧
    Check noHashFilter [97, 108, 112, 104, 97] = .ok true ∧
    Add noHashFilter [97, 108, 112, 104, 97] = .ok noHashFilter ∧
    ∀ ys, addAll noHashFilter ys = .ok noHashFilter :=
  ⟨⟨goMath_100_2, rfl⟩, no_hashes_degenerate noHashFilter [97, 108, 112, 104, 97] rfl⟩

/-- C14, refuted as stated: for the invalid capacity -100, with denominator
1024, `NewBloomFilter` signals nothing and returns a filter whose bit array has
45 words. -/
theorem invalid_parameters_accepted :
    ∃ f, NewBloomFilter goMath (-100) 1024 = .ok f ∧ f.Capacity ≤ 0 ∧
      f.BitSize = 1443 ∧ f.state.length = 45 :=
  ⟨negativeFilter, goMath_neg100_1024, by decide, rfl, List.length_replicate 45 0⟩

theorem goMath_5_1 : NewBloomFilter goMath 5 1 = .ok ⟨5, 1, 0, 0, 0, []⟩ := by
  rw [NewBloomFilter_ok_iff]
  have h1 : bitSizeOf goMath 5 1 = |(0 : Int)| :=
    goMath_bitSize 5 1 0 0 (by norm_num [goMath, tabulated, List.find?, mathE])
      (by norm_num)
  have h2 : hashCountOf goMath 0 = 0 :=
    goMath_hashCount 0 0 (by norm_num)
  rw [h1]
  exact ⟨by decide, by decide, by decide, by decide,
    by rw [show Int.tdiv |(0 : Int)| 5 = 0 by decide, h2]; rfl⟩

/-- C14, amended. `NewBloomFilter` validates nothing and signals no
configuration error. For capacity 0 the call panics with an integer divide by
zero. For any other capacity `make` panics when the denominator is 0 or less
(the conversion of the infinite or NaN float being as on amd64), when the bit
size does not fit an `int64`, or when the words are not allocated. Every filter
the call returns has the capacity and the denominator given, and a non-empty
bit array exactly when its `BitSize` is at least 32. For every capacity other
than 0, the negative ones too, and every denominator of 1 or more, the call
returns a filter when the bit size fits an `int64` and `make` allocates the
words; and for the denominator 1, the float product being zero, that filter has
`BitSize = 0` and an empty bit array. -/
theorem no_validation (lib : MathLib) (n p : Int) :
    (n = 0 → NewBloomFilter lib n p = .error .divideByZero) ∧
    (n ≠ 0 →
      p ≤ 0 ∨ 2 ^ 63 ≤ bitSizeOf lib n p ∨
        lib.allocates (bitSizeOf lib n p / 32).toNat = false →
      NewBloomFilter lib n p = .error .makeslice) ∧
    (∀ f, NewBloomFilter lib n p = .ok f →
      f.Capacity = n ∧ f.FalsePositiveRate = p ∧ (f.state ≠ [] ↔ 32 ≤ f.BitSize)) ∧
    (n ≠ 0 → 1 ≤ p → bitSizeOf lib n p < 2 ^ 63 →
      lib.allocates (bitSizeOf lib n p / 32).toNat = true →
      ∃ f, NewBloomFilter lib n p = .ok f ∧ f.BitSize = bitSizeOf lib n p) ∧
    (n ≠ 0 → p = 1 → sizeProduct lib n p = 0 → lib.allocates 0 = true →
      ∃ f, NewBloomFilter lib n p = .ok f ∧ f.BitSize = 0 ∧ f.state = []) := by
  have h1 : Int.tdiv (bitSizeOf lib n p) 32 = bitSizeOf lib n p / 32 :=
    Int.tdiv_eq_ediv (bitSizeOf_nonneg lib n p) (by decide)
  have returns : n ≠ 0 → 1 ≤ p → bitSizeOf lib n p < 2 ^ 63 →
      lib.allocates (bitSizeOf lib n p / 32).toNat = true →
      ∃ f, NewBloomFilter lib n p = .ok f ∧ f.BitSize = bitSizeOf lib n p := by
    intro hn hp hr ha
    exact ⟨_, (NewBloomFilter_ok_iff lib n p _).2 ⟨hn, by omega, hr, by rw [h1]; exact ha, rfl⟩,
      rfl⟩
  refine ⟨?_, ?_, ?_, returns, ?_⟩
  · intro h
    simp [NewBloomFilter, h]
  · intro hn hc
    cases hr : NewBloomFilter lib n p with
    | error e =>
      rcases NewBloomFilter_error lib n p e hr with ⟨c, _⟩ | ⟨_, c⟩
      · exact absurd c hn
      · rw [c]
    | ok f =>
      obtain ⟨_, a, b, c, _⟩ := (NewBloomFilter_ok_iff lib n p f).1 hr
      rw [h1] at c
      rcases hc with d | d | d
      · omega
      · omega
      · rw [c] at d
        cases d
  · intro f hf
    obtain ⟨h0, h3, h2⟩ := constructed_shape hf
      (by obtain ⟨_, _, c, _, rfl⟩ := (NewBloomFilter_ok_iff lib n p f).1 hf; exact c)
    refine ⟨?_, ?_, ?_⟩
    · obtain ⟨_, _, _, _, rfl⟩ := (NewBloomFilter_ok_iff lib n p f).1 hf
      rfl
    · obtain ⟨_, _, _, _, rfl⟩ := (NewBloomFilter_ok_iff lib n p f).1 hf
      rfl
    · rw [h2, h3]
      constructor
      · intro hne
        by_contra hlt
        apply hne
        have : f.BitSize / 32 = 0 := by omega
        rw [this]
        rfl
      · intro hm hnil
        have hlen := congrArg List.length hnil
        rw [List.length_replicate, List.length_nil] at hlen
        omega
  · intro hn hp hx ha
    have hb : bitSizeOf lib n p = 0 := by
      rw [bitSizeOf_eq, hx]
      simp
    obtain ⟨f, hf, hf2⟩ := returns hn (by omega) (by rw [hb]; decide)
      (by rw [hb]; exact ha)
    obtain ⟨_, h3, h2⟩ := constructed_shape hf (by rw [hf2, hb]; decide)
    refine ⟨f, hf, by rw [hf2, hb], ?_⟩
    rw [h2, h3, hf2, hb]
    rfl

theorem goMath_bitSize_huge :
    bitSizeOf goMath 1000000000000000 1024 = 14426950408889634 := by
  rw [goMath_bitSize 1000000000000000 1024 (-14426950408889634) (-10)
    (by norm_num [goMath, tabulated, List.find?, mathE]) (by norm_num [Int.ceil_eq_iff])]
  rfl

/-- The amended C14 on examples: capacity 0 panics; the denominators 0 and -3
make `make` panic, and so do the 450842200277801 words of capacity `10 ^ 15`;
the denominator 1 gives an empty filter; the capacity -100 gives a filter of 45
words. -/
theorem no_validation_examples :
    NewBloomFilter goMath 0 1024 = .error .divideByZero ∧
    NewBloomFilter goMath 100 0 = .error .makeslice ∧
    NewBloomFilter goMath 100 (-3) = .error .makeslice ∧
    NewBloomFilter goMath 1000000000000000 1024 = .error .makeslice ∧
    NewBloomFilter goMath 5 1 = .ok ⟨5, 1, 0, 0, 0, []⟩ ∧
    NewBloomFilter goMath (-100) 1024 = .ok negativeFilter :=
  ⟨(no_validation goMath 0 1024).1 rfl,
    (no_validation goMath 100 0).2.1 (by decide) (Or.inl (by decide)),
    (no_validation goMath 100 (-3)).2.1 (by decide) (Or.inl (by decide)),
    (no_validation goMath 1000000000000000 1024).2.1 (by decide)
      (Or.inr (Or.inr (by rw [goMath_bitSize_huge]; decide))),
    goMath_5_1, goMath_neg100_1024⟩

/-! ## The claims on frame and purity -/

/-- C12. Parameters are fixed for the lifetime of the instance. For every
filter: a call `Add(x)`, and any sequence of such calls, leaves `BitSize`,
`NumHashes`, `Capacity`, `FalsePositiveRate`, `numBuckets` and the number of
words unchanged; `Add(x)` does return on every filter that cannot panic. -/
theorem add_keeps_parameters (set : BloomFilter) (x : Bytes) :
    (∀ t, Add set x = .ok t →
      t.BitSize = set.BitSize ∧ t.NumHashes = set.NumHashes ∧ t.Capacity = set.Capacity ∧
      t.FalsePositiveRate = set.FalsePositiveRate ∧ t.numBuckets = set.numBuckets ∧
      t.state.length = set.state.length) ∧
    (∀ ys t, addAll set ys = .ok t →
      t.BitSize = set.BitSize ∧ t.NumHashes = set.NumHashes ∧ t.Capacity = set.Capacity ∧
      t.FalsePositiveRate = set.FalsePositiveRate ∧ t.numBuckets = set.numBuckets ∧
      t.state.length = set.state.length) ∧
    (Usable set → ∃ t, Add set x = .ok t) := by
  have key : ∀ t, Grows set t →
      t.BitSize = set.BitSize ∧ t.NumHashes = set.NumHashes ∧ t.Capacity = set.Capacity ∧
      t.FalsePositiveRate = set.FalsePositiveRate ∧ t.numBuckets = set.numBuckets ∧
      t.state.length = set.state.length :=
    fun t g => ⟨g.bitSize, g.hashes, g.capacity, g.rate, g.buckets, g.length⟩
  exact ⟨fun t h => key t (Add_grows h), fun ys t h => key t (addAll_grows h),
    fun u => Add_total u x⟩

theorem testBitM_eq (s : BloomFilter) (index : Int) :
    testBitM s index = (testBit s index).map (fun b => (b, s)) := by
  simp only [testBitM, testBit]
  split_ifs <;> rfl

theorem checkLoopM_eq (a b n i : Nat) (s : BloomFilter) :
    checkLoopM a b n i s = (checkLoop s a b n i).map (fun r => (r, s)) := by
  induction n generalizing i with
  | zero => rw [checkLoopM, checkLoop]; rfl
  | succ n ih =>
    rw [checkLoopM, checkLoop]
    cases h1 : indexAt s a b i with
    | error e => rfl
    | ok index =>
      simp only [testBitM_eq]
      cases h2 : testBit s index with
      | error e => rfl
      | ok bit =>
        simp only [Except.map]
        split_ifs
        · rfl
        · exact ih (i + 1)

/-- C13. `Check` is a pure read and deterministic. With the receiver passed on
from call to call, `Check(x)` computes the result of the function `Check` and
leaves the filter it was given, all fields and words; so a second `Check(x)`
returns the same result; and `Check(x)` does return on every filter that cannot
panic. -/
theorem check_is_pure (set : BloomFilter) (x : Bytes) :
    CheckM set x = (Check set x).map (fun r => (r, set)) ∧
    (∀ r t, CheckM set x = .ok (r, t) → t = set ∧ CheckM t x = .ok (r, t)) ∧
    (Usable set → ∃ r, CheckM set x = .ok (r, set)) := by
  have e : CheckM set x = (Check set x).map (fun r => (r, set)) := checkLoopM_eq _ _ _ _ set
  refine ⟨e, ?_, ?_⟩
  · intro r t h
    have ht : t = set := by
      rw [e] at h
      cases hc : Check set x with
      | error err => rw [hc] at h; cases h
      | ok r2 => rw [hc] at h; cases h; rfl
    subst ht
    exact ⟨rfl, h⟩
  · intro u
    obtain ⟨r, h⟩ := checkLoop_total u (hashFNV1a x).1 (hashFNV1a x).2 set.NumHashes.toNat 0
    refine ⟨r, ?_⟩
    rw [e]
    unfold Check
    rw [h]
    rfl

/-! ## The bits that `Add` sets -/

theorem setBit_bits {s t : BloomFilter} {index : Int} (h : setBit s index = .ok t)
    (w o : Nat) :
    bitAt t.state w o = true ↔ bitAt s.state w o = true ∨ Addresses s index w o := by
  obtain ⟨_, h1, h2, rfl⟩ := (setBit_ok_iff s t index).1 h
  have hb : (bucketOf s index).toNat < s.state.length := by omega
  show bitAt (s.state.set _ _) w o = true ↔ _
  rw [bitAt_set _ _ _ _ _ hb]
  unfold Addresses
  split_ifs with e
  · subst e
    rw [testBit_or_shl1]
    unfold bitAt
    simp only [Bool.or_eq_true, Bool.and_eq_true, decide_eq_true_eq, true_and]
    constructor
    · rintro (a | ⟨b, c⟩)
      · exact Or.inl a
      · exact Or.inr ⟨b, c.symm⟩
    · rintro (a | ⟨b, c⟩)
      · exact Or.inl a
      · exact Or.inr ⟨b, c.symm⟩
  · constructor
    · intro a; exact Or.inl a
    · rintro (a | ⟨b, _⟩)
      · exact a
      · exact absurd b e

theorem Addresses_congr {s t : BloomFilter} (g : Grows s t) (index : Int) (w o : Nat) :
    Addresses t index w o ↔ Addresses s index w o := by
  unfold Addresses bucketOf
  rw [g.buckets]

theorem addLoop_bits {a b n i : Nat} {s t : BloomFilter}
    (h : addLoop a b n i s = .ok t) (w o : Nat) :
    bitAt t.state w o = true ↔
      bitAt s.state w o = true ∨
      ∃ j, i ≤ j ∧ j < i + n ∧ Addresses s (Int.tmod (mix a b j) s.BitSize) w o := by
  induction n generalizing i s with
  | zero =>
    rw [addLoop] at h
    cases h
    constructor
    · intro c; exact Or.inl c
    · rintro (c | ⟨j, j1, j2, _⟩)
      · exact c
      · omega
  | succ n ih =>
    obtain ⟨index, s1, e1, e2, e3⟩ := (addLoop_succ_ok_iff a b n i s t).1 h
    obtain ⟨_, rfl⟩ := (indexAt_ok_iff s a b i index).1 e1
    have g := setBit_grows e2
    rw [ih e3, setBit_bits e2, g.bitSize]
    constructor
    · rintro ((c | c) | ⟨j, j1, j2, c⟩)
      · exact Or.inl c
      · exact Or.inr ⟨i, Nat.le_refl i, by omega, c⟩
      · exact Or.inr ⟨j, by omega, by omega, (Addresses_congr g _ w o).1 c⟩
    · rintro (c | ⟨j, j1, j2, c⟩)
      · exact Or.inl (Or.inl c)
      · by_cases e : j = i
        · subst e; exact Or.inl (Or.inr c)
        · exact Or.inr ⟨j, by omega, by omega, (Addresses_congr g _ w o).2 c⟩

theorem Add_bits {s t : BloomFilter} {x : Bytes} (h : Add s x = .ok t) (w o : Nat) :
    bitAt t.state w o = true ↔
      bitAt s.state w o = true ∨
      ∃ j : Nat, (j : Int) < s.NumHashes ∧ Addresses s (indexOf s x j) w o := by
  rw [addLoop_bits h]
  unfold indexOf
  constructor
  · rintro (c | ⟨j, _, j2, c⟩)
    · exact Or.inl c
    · exact Or.inr ⟨j, by omega, c⟩
  · rintro (c | ⟨j, j2, c⟩)
    · exact Or.inl c
    · exact Or.inr ⟨j, Nat.zero_le j, by omega, c⟩

theorem fnv64a_lt (x : Bytes) : fnv64a x < 2 ^ 64 := by
  unfold fnv64a
  have key : ∀ (l : Bytes) (h : Nat), h < 2 ^ 64 →
      l.foldl (fun hash c => ((hash ^^^ c.val) * fnvPrime64) % 2 ^ 64) h < 2 ^ 64 := by
    intro l
    induction l with
    | nil => intro h hh; exact hh
    | cons c l ih =>
      intro h _
      exact ih _ (Nat.mod_lt _ (by decide))
  exact key x fnvOffset64 (by decide)

theorem hashFNV1a_eq (x : Bytes) :
    hashFNV1a x = (fnv64a x % 2 ^ 32, fnv64a x / 2 ^ 32) := by
  unfold hashFNV1a
  have h := fnv64a_lt x
  have h1 : fnv64a x &&& 0xFFFFFFFF = fnv64a x % 2 ^ 32 :=
    Nat.and_pow_two_sub_one_eq_mod (fnv64a x) 32
  have h2 : fnv64a x >>> 32 = fnv64a x / 2 ^ 32 := Nat.shiftRight_eq_div_pow _ 32
  simp only [h1, h2, Nat.mod_mod]
  have h3 : fnv64a x / 2 ^ 32 < 2 ^ 32 := by omega
  rw [Nat.mod_eq_of_lt h3]

theorem mix_eq (a b i : Nat) : mix a b i = (((a + b * i) % 2 ^ 32 : Nat) : Int) := by
  unfold mix
  congr 1
  have h : b * (i % 2 ^ 32) % 2 ^ 32 = b * i % 2 ^ 32 := by
    rw [Nat.mul_mod, Nat.mod_mod, ← Nat.mul_mod]
  rw [Nat.add_mod, Nat.mod_mod, h, ← Nat.add_mod]

theorem indexOf_eq_spec (s : BloomFilter) (x : Bytes) (i : Nat) (h : 0 ≤ s.BitSize) :
    indexOf s x i = specIndex s.BitSize (fnv64a x) i := by
  unfold indexOf specIndex
  rw [hashFNV1a_eq, mix_eq]
  exact Int.tmod_eq_emod (Int.ofNat_nonneg _) h

theorem indexOf_nonneg (s : BloomFilter) (x : Bytes) (i : Nat) : 0 ≤ indexOf s x i :=
  Int.tmod_nonneg _ (mix_nonneg _ _ _)

theorem Addresses_iff (s : BloomFilter) (index : Int) (w o : Nat) (hi : 0 ≤ index)
    (hn : 0 < s.numBuckets) :
    Addresses s index w o ↔
      (w : Int) = index / 32 % s.numBuckets ∧ (o : Int) = index % 32 := by
  unfold Addresses
  have h1 : bucketOf s index = index / 32 % s.numBuckets := by
    unfold bucketOf
    rw [Int.tdiv_eq_ediv hi (by decide),
      Int.tmod_eq_emod (Int.ediv_nonneg hi (by decide)) (by omega)]
  have h2 := bucketOf_range s index hi hn
  have h3 := bitNo_offsetOf index hi
  rw [← h1]
  constructor
  · rintro ⟨a, _, c⟩
    exact ⟨by omega, by omega⟩
  · rintro ⟨a, c⟩
    exact ⟨by omega, h3.1, by omega⟩

theorem usable_of_shape {s : BloomFilter} (hm : 32 ≤ s.BitSize)
    (hb : s.numBuckets = s.BitSize / 32) (hl : (s.state.length : Int) = s.numBuckets) :
    Usable s :=
  ⟨by omega, by omega, hl⟩

/-- C15. `Add` sets exactly the double-hashing bits. For every filter with
`BitSize >= 32`, `numBuckets = BitSize / 32` words and any `NumHashes`, and
every `x`: `hashFNV1a` returns the low and the high half of the digest, `Add(x)`
returns, and afterwards bit `o` of word `w` is 1 exactly when it was 1 before or
`(w, o) = ((index_i / 32) mod numBuckets, index_i mod 32)` for some
`i < NumHashes`, with `index_i` as the specification words it. -/
theorem add_sets_exactly (set : BloomFilter) (x : Bytes) (hm : 32 ≤ set.BitSize)
    (hb : set.numBuckets = set.BitSize / 32)
    (hl : (set.state.length : Int) = set.numBuckets) :
    hashFNV1a x = (fnv64a x % 2 ^ 32, fnv64a x / 2 ^ 32) ∧
    ∃ t, Add set x = .ok t ∧
      ∀ w o : Nat, bitAt t.state w o = true ↔
        bitAt set.state w o = true ∨
        ∃ i : Nat, (i : Int) < set.NumHashes ∧
          (w : Int) = specIndex set.BitSize (fnv64a x) i / 32 % set.numBuckets ∧
          (o : Int) = specIndex set.BitSize (fnv64a x) i % 32 := by
  have u : Usable set := usable_of_shape hm hb hl
  obtain ⟨t, ht⟩ := Add_total u x
  refine ⟨hashFNV1a_eq x, t, ht, ?_⟩
  intro w o
  rw [Add_bits ht]
  have e : ∀ i : Nat, Addresses set (indexOf set x i) w o ↔
      (w : Int) = specIndex set.BitSize (fnv64a x) i / 32 % set.numBuckets ∧
      (o : Int) = specIndex set.BitSize (fnv64a x) i % 32 := by
    intro i
    rw [Addresses_iff set _ w o (indexOf_nonneg set x i) u.2.1,
      indexOf_eq_spec set x i (by omega)]
  constructor
  · rintro (c | ⟨i, hi, c⟩)
    · exact Or.inl c
    · exact Or.inr ⟨i, hi, (e i).1 c⟩
  · rintro (c | ⟨i, hi, c⟩)
    · exact Or.inl c
    · exact Or.inr ⟨i, hi, (e i).2 c⟩

/-- Witness of C15: "alpha" added to the fresh filter of 57 bits. -/
theorem add_sets_exactly_witness :
    (32 ≤ oneWordFilter.BitSize ∧ oneWordFilter.numBuckets = oneWordFilter.BitSize / 32 ∧
      (oneWordFilter.state.length : Int) = oneWordFilter.numBuckets) ∧
    hashFNV1a [97, 108, 112, 104, 97] =
      (fnv64a [97, 108, 112, 104, 97] % 2 ^ 32, fnv64a [97, 108, 112, 104, 97] / 2 ^ 32) ∧
    ∃ t, Add oneWordFilter [97, 108, 112, 104, 97] = .ok t ∧
      ∀ w o : Nat, bitAt t.state w o = true ↔
        bitAt oneWordFilter.state w o = true ∨
        ∃ i : Nat, (i : Int) < oneWordFilter.NumHashes ∧
          (w : Int) = specIndex oneWordFilter.BitSize (fnv64a [97, 108, 112, 104, 97]) i / 32 %
            oneWordFilter.numBuckets ∧
          (o : Int) = specIndex oneWordFilter.BitSize (fnv64a [97, 108, 112, 104, 97]) i % 32 :=
  ⟨⟨by decide, by decide, by decide⟩,
    add_sets_exactly oneWordFilter [97, 108, 112, 104, 97] (by decide) (by decide) (by decide)⟩

/-! ## Word positions and bit offsets -/

theorem bucketOf_eq_emod (s : BloomFilter) (index : Int) (hi : 0 ≤ index)
    (hn : 0 < s.numBuckets) : bucketOf s index = index / 32 % s.numBuckets := by
  unfold bucketOf
  rw [Int.tdiv_eq_ediv hi (by decide),
    Int.tmod_eq_emod (Int.ediv_nonneg hi (by decide)) (by omega)]

theorem offsetOf_eq_emod (index : Int) (hi : 0 ≤ index) : offsetOf index = index % 32 :=
  Int.tmod_eq_emod hi (by decide)

theorem setBit_congr (s : BloomFilter) {i j : Int} (h1 : bucketOf s i = bucketOf s j)
    (h2 : offsetOf i = offsetOf j) : setBit s i = setBit s j := by
  simp only [setBit, h1, h2]

theorem testBit_congr (s : BloomFilter) {i j : Int} (h1 : bucketOf s i = bucketOf s j)
    (h2 : offsetOf i = offsetOf j) : testBit s i = testBit s j := by
  simp only [testBit, h1, h2]

/-- C16. In-bounds access for filters of at least one word. For every filter
with `BitSize >= 32`, `numBuckets = BitSize / 32` and a state of `numBuckets`
words, and every `x`: each index is computed without a modulo by zero, its word
position lies in `[0, numBuckets)` and its bit offset in `[0, 32)`; `Add(x)` and
`Check(x)` return without panic, and the filter `Add` returns has the same
shape. -/
theorem in_bounds_access (set : BloomFilter) (x : Bytes) (hm : 32 ≤ set.BitSize)
    (hb : set.numBuckets = set.BitSize / 32)
    (hl : (set.state.length : Int) = set.numBuckets) :
    (∀ i : Nat,
      indexAt set (hashFNV1a x).1 (hashFNV1a x).2 i = .ok (indexOf set x i) ∧
      0 ≤ bucketOf set (indexOf set x i) ∧ bucketOf set (indexOf set x i) < set.numBuckets ∧
      bucketOf set (indexOf set x i) < set.state.length ∧
      0 ≤ offsetOf (indexOf set x i) ∧ offsetOf (indexOf set x i) < 32) ∧
    (∃ t, Add set x = .ok t ∧ 32 ≤ t.BitSize ∧ t.numBuckets = t.BitSize / 32 ∧
      (t.state.length : Int) = t.numBuckets) ∧
    (∃ r, Check set x = .ok r) := by
  have u : Usable set := usable_of_shape hm hb hl
  refine ⟨?_, ?_, checkLoop_total u _ _ _ _⟩
  · intro i
    have h0 := indexOf_nonneg set x i
    have h1 := bucketOf_range set _ h0 u.2.1
    have h2 := offsetOf_eq_emod _ h0
    refine ⟨(indexAt_ok_iff _ _ _ _ _).2 ⟨u.1, rfl⟩, h1.1, h1.2, by omega, by omega, by omega⟩
  · obtain ⟨t, ht⟩ := Add_total u x
    have g := Add_grows ht
    exact ⟨t, ht, by rw [g.bitSize]; exact hm, by rw [g.buckets, g.bitSize]; exact hb,
      by rw [g.length, g.buckets]; exact hl⟩

/-- Witness of C16 on the filter of the tests. -/
theorem in_bounds_access_witness :
    (32 ≤ testFilter.BitSize ∧ testFilter.numBuckets = testFilter.BitSize / 32 ∧
      (testFilter.state.length : Int) = testFilter.numBuckets) ∧
    (∀ i : Nat,
      indexAt testFilter (hashFNV1a [1, 2, 3]).1 (hashFNV1a [1, 2, 3]).2 i =
        .ok (indexOf testFilter [1, 2, 3] i) ∧
      0 ≤ bucketOf testFilter (indexOf testFilter [1, 2, 3] i) ∧
      bucketOf testFilter (indexOf testFilter [1, 2, 3] i) < testFilter.numBuckets ∧
      bucketOf testFilter (indexOf testFilter [1, 2, 3] i) < testFilter.state.length ∧
      0 ≤ offsetOf (indexOf testFilter [1, 2, 3] i) ∧
      offsetOf (indexOf testFilter [1, 2, 3] i) < 32) ∧
    (∃ t, Add testFilter [1, 2, 3] = .ok t ∧ 32 ≤ t.BitSize ∧
      t.numBuckets = t.BitSize / 32 ∧ (t.state.length : Int) = t.numBuckets) ∧
    (∃ r, Check testFilter [1, 2, 3] = .ok r) :=
  ⟨⟨by decide, by decide, testFilter_length⟩,
    in_bounds_access testFilter [1, 2, 3] (by decide) (by decide) testFilter_length⟩

/-- C17. Tail indices alias into word 0. For every filter with
`numBuckets = BitSize / 32 >= 1`: each index `i` with
`32 * numBuckets <= i < BitSize` is addressed at word 0 and offset `i mod 32`,
as is the index `i - 32 * numBuckets`, and `setBit` and `testBit` do the same on
both; such an index exists when `BitSize` is not a multiple of 32; and the map
from the indices in `[0, BitSize)` to word position and offset is injective
exactly when `BitSize` is a multiple of 32. -/
theorem tail_indices_alias (set : BloomFilter) (hb : set.numBuckets = set.BitSize / 32)
    (hn : 1 ≤ set.numBuckets) :
    (∀ i : Int, 32 * set.numBuckets ≤ i → i < set.BitSize →
      bucketOf set i = 0 ∧ offsetOf i = i % 32 ∧
      bucketOf set (i - 32 * set.numBuckets) = 0 ∧
      offsetOf (i - 32 * set.numBuckets) = i % 32 ∧
      setBit set i = setBit set (i - 32 * set.numBuckets) ∧
      testBit set i = testBit set (i - 32 * set.numBuckets)) ∧
    (set.BitSize % 32 ≠ 0 → ∃ i : Int, 32 * set.numBuckets ≤ i ∧ i < set.BitSize) ∧
    ((∀ i j : Int, 0 ≤ i → i < set.BitSize → 0 ≤ j → j < set.BitSize →
        bucketOf set i = bucketOf set j → offsetOf i = offsetOf j → i = j) ↔
      set.BitSize % 32 = 0) := by
  have tail : ∀ i : Int, 32 * set.numBuckets ≤ i → i < set.BitSize →
      bucketOf set i = 0 ∧ offsetOf i = i % 32 ∧
      bucketOf set (i - 32 * set.numBuckets) = 0 ∧
      offsetOf (i - 32 * set.numBuckets) = i % 32 := by
    intro i h1 h2
    have hi : 0 ≤ i := by omega
    have hj : 0 ≤ i - 32 * set.numBuckets := by omega
    have q1 : i / 32 = set.numBuckets := by omega
    have q2 : (i - 32 * set.numBuckets) / 32 = 0 := by omega
    refine ⟨?_, offsetOf_eq_emod i hi, ?_, ?_⟩
    · rw [bucketOf_eq_emod set i hi (by omega), q1, Int.emod_self]
    · rw [bucketOf_eq_emod set _ hj (by omega), q2, Int.zero_emod]
    · rw [offsetOf_eq_emod _ hj]
      omega
  refine ⟨?_, ?_, ?_⟩
  · intro i h1 h2
    obtain ⟨a, b, c, d⟩ := tail i h1 h2
    exact ⟨a, b, c, d, setBit_congr set (a.trans c.symm) (b.trans d.symm),
      testBit_congr set (a.trans c.symm) (b.trans d.symm)⟩
  · intro h
    exact ⟨32 * set.numBuckets, Int.le_refl _, by omega⟩
  · constructor
    · intro inj
      by_contra h
      have h1 : 32 * set.numBuckets < set.BitSize := by omega
      obtain ⟨a, b, c, d⟩ := tail (32 * set.numBuckets) (Int.le_refl _) h1
      have e := inj (32 * set.numBuckets) (32 * set.numBuckets - 32 * set.numBuckets)
        (by omega) h1 (by omega) (by omega) (a.trans c.symm) (b.trans d.symm)
      omega
    · intro h i j i0 i1 j0 j1 e1 e2
      have bi : i / 32 < set.numBuckets := by omega
      have bj : j / 32 < set.numBuckets := by omega
      rw [bucketOf_eq_emod set i i0 (by omega), bucketOf_eq_emod set j j0 (by omega),
        Int.emod_eq_of_lt (by omega) bi, Int.emod_eq_of_lt (by omega) bj] at e1
      rw [offsetOf_eq_emod i i0, offsetOf_eq_emod j j0] at e2
      omega

/-- Witness of C17 on the filter of 57 bits in one word: the indices 32 to 56
share their bits with the indices 0 to 24. -/
theorem tail_indices_alias_witness :
    (oneWordFilter.numBuckets = oneWordFilter.BitSize / 32 ∧ 1 ≤ oneWordFilter.numBuckets) ∧
    (∀ i : Int, 32 * oneWordFilter.numBuckets ≤ i → i < oneWordFilter.BitSize →
      bucketOf oneWordFilter i = 0 ∧ offsetOf i = i % 32 ∧
      bucketOf oneWordFilter (i - 32 * oneWordFilter.numBuckets) = 0 ∧
      offsetOf (i - 32 * oneWordFilter.numBuckets) = i % 32 ∧
      setBit oneWordFilter i = setBit oneWordFilter (i - 32 * oneWordFilter.numBuckets) ∧
      testBit oneWordFilter i = testBit oneWordFilter (i - 32 * oneWordFilter.numBuckets)) ∧
    (oneWordFilter.BitSize % 32 ≠ 0 →
      ∃ i : Int, 32 * oneWordFilter.numBuckets ≤ i ∧ i < oneWordFilter.BitSize) ∧
    ((∀ i j : Int, 0 ≤ i → i < oneWordFilter.BitSize → 0 ≤ j → j < oneWordFilter.BitSize →
        bucketOf oneWordFilter i = bucketOf oneWordFilter j → offsetOf i = offsetOf j →
        i = j) ↔
      oneWordFilter.BitSize % 32 = 0) :=
  ⟨⟨by decide, by decide⟩, tail_indices_alias oneWordFilter (by decide) (by decide)⟩

/-! ## The order of insertion -/

theorem state_ext {a b : List Nat} (hl : a.length = b.length)
    (h : ∀ w o, bitAt a w o = bitAt b w o) : a = b := by
  apply List.ext_getElem hl
  intro w h1 h2
  apply Nat.eq_of_testBit_eq
  intro o
  have := h w o
  unfold bitAt at this
  simpa [List.getD_eq_getElem?_getD, h1, h2] using this

theorem eq_of_grows {s t1 t2 : BloomFilter} (g1 : Grows s t1) (g2 : Grows s t2)
    (h : ∀ w o, bitAt t1.state w o = true ↔ bitAt t2.state w o = true) : t1 = t2 := by
  have hs : t1.state = t2.state := by
    apply state_ext (g1.length.trans g2.length.symm)
    intro w o
    have := h w o
    cases h1 : bitAt t1.state w o <;> cases h2 : bitAt t2.state w o <;> simp_all
  cases t1
  cases t2
  have c1 := g1.capacity
  have c2 := g2.capacity
  have r1 := g1.rate
  have r2 := g2.rate
  have k1 := g1.hashes
  have k2 := g2.hashes
  have m1 := g1.bitSize
  have m2 := g2.bitSize
  have b1 := g1.buckets
  have b2 := g2.buckets
  simp only at c1 c2 r1 r2 k1 k2 m1 m2 b1 b2 hs
  subst c1 r1 k1 m1 b1 hs
  rw [c2, r2, k2, m2, b2]

theorem AddedBy_congr {s t : BloomFilter} (g : Grows s t) (x : Bytes) (w o : Nat) :
    AddedBy t x w o ↔ AddedBy s x w o := by
  unfold AddedBy indexOf
  rw [g.hashes, g.bitSize]
  constructor
  · rintro ⟨j, hj, c⟩; exact ⟨j, hj, (Addresses_congr g _ w o).1 c⟩
  · rintro ⟨j, hj, c⟩; exact ⟨j, hj, (Addresses_congr g _ w o).2 c⟩

theorem Add_bits_iff {s t : BloomFilter} {x : Bytes} (h : Add s x = .ok t) (w o : Nat) :
    bitAt t.state w o = true ↔ bitAt s.state w o = true ∨ AddedBy s x w o :=
  Add_bits h w o

theorem addAll_bits {s t : BloomFilter} {ys : List Bytes} (h : addAll s ys = .ok t)
    (w o : Nat) :
    bitAt t.state w o = true ↔
      bitAt s.state w o = true ∨ ∃ v, v ∈ ys ∧ AddedBy s v w o := by
  induction ys generalizing s with
  | nil =>
    rw [addAll] at h
    cases h
    simp
  | cons y ys ih =>
    obtain ⟨s1, h1, h2⟩ := (addAll_cons_ok_iff s t y ys).1 h
    have g := Add_grows h1
    rw [ih h2, Add_bits_iff h1]
    constructor
    · rintro ((c | c) | ⟨v, hv, c⟩)
      · exact Or.inl c
      · exact Or.inr ⟨y, List.mem_cons_self y ys, c⟩
      · exact Or.inr ⟨v, List.mem_cons_of_mem y hv, (AddedBy_congr g v w o).1 c⟩
    · rintro (c | ⟨v, hv, c⟩)
      · exact Or.inl (Or.inl c)
      · rcases List.mem_cons.1 hv with e | e
        · subst e; exact Or.inl (Or.inr c)
        · exact Or.inr ⟨v, e, (AddedBy_congr g v w o).2 c⟩

/-- C18. Insertion order does not matter. For every filter: when `Add(x)` then
`Add(y)`, and `Add(y)` then `Add(x)`, both run, they leave the same filter; when
two lists with the same set of values are added, they leave the same filter; and
on a filter with `BitSize >= 32` and `numBuckets = BitSize / 32` words all these
calls do run. -/
theorem add_order_irrelevant (set : BloomFilter) (x y : Bytes) :
    (∀ s1 t1 s2 t2, Add set x = .ok s1 → Add s1 y = .ok t1 →
      Add set y = .ok s2 → Add s2 x = .ok t2 → t1 = t2) ∧
    (∀ xs ys t1 t2, (∀ v, v ∈ xs ↔ v ∈ ys) →
      addAll set xs = .ok t1 → addAll set ys = .ok t2 → t1 = t2) ∧
    (32 ≤ set.BitSize → set.numBuckets = set.BitSize / 32 →
      (set.state.length : Int) = set.numBuckets →
      (∃ s1 s2 t, Add set x = .ok s1 ∧ Add s1 y = .ok t ∧
        Add set y = .ok s2 ∧ Add s2 x = .ok t) ∧
      ∀ xs, ∃ t, addAll set xs = .ok t) := by
  have swap : ∀ s1 t1 s2 t2, Add set x = .ok s1 → Add s1 y = .ok t1 →
      Add set y = .ok s2 → Add s2 x = .ok t2 → t1 = t2 := by
    intro s1 t1 s2 t2 h1 h2 h3 h4
    have g1 := Add_grows h1
    have g3 := Add_grows h3
    apply eq_of_grows (g1.trans (Add_grows h2)) (g3.trans (Add_grows h4))
    intro w o
    rw [Add_bits_iff h2, Add_bits_iff h1, Add_bits_iff h4, Add_bits_iff h3,
      AddedBy_congr g1, AddedBy_congr g3]
    constructor
    · rintro ((c | c) | c)
      · exact Or.inl (Or.inl c)
      · exact Or.inr c
      · exact Or.inl (Or.inr c)
    · rintro ((c | c) | c)
      · exact Or.inl (Or.inl c)
      · exact Or.inr c
      · exact Or.inl (Or.inr c)
  refine ⟨swap, ?_, ?_⟩
  · intro xs ys t1 t2 hv h1 h2
    apply eq_of_grows (addAll_grows h1) (addAll_grows h2)
    intro w o
    rw [addAll_bits h1, addAll_bits h2]
    constructor
    · rintro (c | ⟨v, m, c⟩)
      · exact Or.inl c
      · exact Or.inr ⟨v, (hv v).1 m, c⟩
    · rintro (c | ⟨v, m, c⟩)
      · exact Or.inl c
      · exact Or.inr ⟨v, (hv v).2 m, c⟩
  · intro hm hb hl
    have u : Usable set := usable_of_shape hm hb hl
    obtain ⟨s1, h1⟩ := Add_total u x
    obtain ⟨t1, h2⟩ := Add_total (u.of_grows (Add_grows h1)) y
    obtain ⟨s2, h3⟩ := Add_total u y
    obtain ⟨t2, h4⟩ := Add_total (u.of_grows (Add_grows h3)) x
    have e := swap s1 t1 s2 t2 h1 h2 h3 h4
    subst e
    exact ⟨⟨s1, s2, t1, h1, h2, h3, h4⟩, fun xs => addAll_total u xs⟩

/-! ## Filters of more than `2 ^ 32` bits -/

theorem tmod_le_self (a b : Int) (ha : 0 ≤ a) : Int.tmod a b ≤ a := by
  have key : ∀ c : Int, 0 < c → Int.tmod a c ≤ a := by
    intro c hc
    rw [Int.tmod_eq_emod ha (by omega)]
    by_cases h : a < c
    · rw [Int.emod_eq_of_lt ha h]
    · have := Int.emod_lt_of_pos a hc
      omega
  rcases Int.lt_trichotomy b 0 with h | h | h
  · have := key (-b) (by omega)
    rwa [Int.tmod_neg] at this
  · subst h
    rw [Int.tmod_zero]
  · exact key b h

theorem bucketOf_lt (s : BloomFilter) (index : Int) (h0 : 0 ≤ index)
    (h1 : index < 2 ^ 32) : 0 ≤ bucketOf s index ∧ bucketOf s index < 2 ^ 27 := by
  unfold bucketOf
  have q : 0 ≤ index.tdiv 32 := Int.tdiv_nonneg h0 (by decide)
  have q2 : index.tdiv 32 = index / 32 := Int.tdiv_eq_ediv h0 (by decide)
  have q3 := tmod_le_self (index.tdiv 32) s.numBuckets q
  exact ⟨Int.tmod_nonneg _ q, by omega⟩

theorem indexOf_lt (s : BloomFilter) (x : Bytes) (i : Nat) : indexOf s x i < 2 ^ 32 := by
  have h := tmod_le_self (mix (hashFNV1a x).1 (hashFNV1a x).2 i) s.BitSize (mix_nonneg _ _ _)
  have h2 := mix_lt (hashFNV1a x).1 (hashFNV1a x).2 i
  unfold indexOf
  omega

theorem setBit_other {s t : BloomFilter} {index : Int} (h : setBit s index = .ok t)
    (w : Nat) (hw : w ≠ (bucketOf s index).toNat) : t.state[w]? = s.state[w]? := by
  obtain ⟨_, _, _, rfl⟩ := (setBit_ok_iff s t index).1 h
  show (s.state.set _ _)[w]? = _
  rw [List.getElem?_set]
  rw [if_neg (fun e => hw e.symm)]

theorem addLoop_other {a b n i : Nat} {s t : BloomFilter}
    (h : addLoop a b n i s = .ok t) (w : Nat)
    (hw : ∀ j, i ≤ j → j < i + n →
      w ≠ (bucketOf s (Int.tmod (mix a b j) s.BitSize)).toNat) :
    t.state[w]? = s.state[w]? := by
  induction n generalizing i s with
  | zero =>
    rw [addLoop] at h
    cases h
    rfl
  | succ n ih =>
    obtain ⟨index, s1, e1, e2, e3⟩ := (addLoop_succ_ok_iff a b n i s t).1 h
    obtain ⟨_, rfl⟩ := (indexAt_ok_iff s a b i index).1 e1
    have g := setBit_grows e2
    rw [ih e3, setBit_other e2 w (hw i (Nat.le_refl i) (by omega))]
    intro j j1 j2
    have := hw j (by omega) (by omega)
    unfold bucketOf at this ⊢
    rw [g.bitSize, g.buckets]
    exact this

theorem testBit_state_congr (s : BloomFilter) (st : List Nat) (index : Int)
    (hl : st.length = s.state.length)
    (hw : 0 ≤ bucketOf s index → st[(bucketOf s index).toNat]? =
      s.state[(bucketOf s index).toNat]?) :
    testBit { s with state := st } index = testBit s index := by
  have hb : bucketOf { s with state := st } index = bucketOf s index := rfl
  simp only [testBit, hb, hl]
  split_ifs with h0 h1
  · rfl
  · rfl
  all_goals
    simp only [List.getD_eq_getElem?_getD, hw (by omega)] at * <;>
    first
      | rfl
      | contradiction

theorem checkLoop_state_congr (s : BloomFilter) (st : List Nat) (a b n i : Nat)
    (hl : st.length = s.state.length)
    (hw : ∀ j, i ≤ j → j < i + n →
      0 ≤ bucketOf s (Int.tmod (mix a b j) s.BitSize) →
      st[(bucketOf s (Int.tmod (mix a b j) s.BitSize)).toNat]? =
        s.state[(bucketOf s (Int.tmod (mix a b j) s.BitSize)).toNat]?) :
    checkLoop { s with state := st } a b n i = checkLoop s a b n i := by
  induction n generalizing i with
  | zero => rw [checkLoop, checkLoop]
  | succ n ih =>
    rw [checkLoop, checkLoop]
    have e0 : indexAt { s with state := st } a b i = indexAt s a b i := rfl
    rw [e0]
    cases h1 : indexAt s a b i with
    | error e => rfl
    | ok index =>
      obtain ⟨_, rfl⟩ := (indexAt_ok_iff s a b i index).1 h1
      simp only
      rw [testBit_state_congr s st _ hl (hw i (Nat.le_refl i) (by omega)),
        ih (i + 1) (fun j j1 j2 => hw j (by omega) (by omega))]

/-- C19. Only the first `2 ^ 32` bits are ever used. For every filter with
`BitSize > 2 ^ 32` and every `x`: each derived index is computed without panic
and is less than `2 ^ 32`, so its word position is less than `2 ^ 27`; `Add(x)`
leaves every word at position `2 ^ 27` or higher as it was; the result of
`Check(x)` does not depend on those words; and both calls return on every such
filter that cannot panic. -/
theorem only_low_bits_used (set : BloomFilter) (x : Bytes) (hm : 2 ^ 32 < set.BitSize) :
    (∀ i : Nat,
      indexAt set (hashFNV1a x).1 (hashFNV1a x).2 i = .ok (indexOf set x i) ∧
      0 ≤ indexOf set x i ∧ indexOf set x i < 2 ^ 32 ∧
      0 ≤ bucketOf set (indexOf set x i) ∧ bucketOf set (indexOf set x i) < 2 ^ 27) ∧
    (∀ t, Add set x = .ok t → ∀ w : Nat, 2 ^ 27 ≤ w → t.state[w]? = set.state[w]?) ∧
    (∀ st : List Nat, st.length = set.state.length →
      (∀ w : Nat, w < 2 ^ 27 → st[w]? = set.state[w]?) →
      Check { set with state := st } x = Check set x) ∧
    (Usable set → (∃ t, Add set x = .ok t) ∧ ∃ r, Check set x = .ok r) := by
  have hb : ∀ i : Nat, 0 ≤ bucketOf set (indexOf set x i) ∧
      bucketOf set (indexOf set x i) < 2 ^ 27 :=
    fun i => bucketOf_lt set _ (indexOf_nonneg set x i) (indexOf_lt set x i)
  refine ⟨?_, ?_, ?_, fun u => ⟨Add_total u x, checkLoop_total u _ _ _ _⟩⟩
  · intro i
    exact ⟨(indexAt_ok_iff _ _ _ _ _).2 ⟨by omega, rfl⟩, indexOf_nonneg set x i,
      indexOf_lt set x i, hb i⟩
  · intro t h w hw
    apply addLoop_other h
    intro j _ _
    have := hb j
    unfold indexOf at this
    omega
  · intro st hl hw
    unfold Check
    apply checkLoop_state_congr _ _ _ _ _ _ hl
    intro j _ _ _
    apply hw
    have := hb j
    unfold indexOf at this
    omega

/-- Witness of C19 on `bigFilter`, of 14426950408 bits. -/
theorem only_low_bits_used_witness :
    2 ^ 32 < bigFilter.BitSize ∧
    (∀ i : Nat,
      indexAt bigFilter (hashFNV1a [1, 2, 3]).1 (hashFNV1a [1, 2, 3]).2 i =
        .ok (indexOf bigFilter [1, 2, 3] i) ∧
      0 ≤ indexOf bigFilter [1, 2, 3] i ∧ indexOf bigFilter [1, 2, 3] i < 2 ^ 32 ∧
      0 ≤ bucketOf bigFilter (indexOf bigFilter [1, 2, 3] i) ∧
      bucketOf bigFilter (indexOf bigFilter [1, 2, 3] i) < 2 ^ 27) ∧
    (∀ t, Add bigFilter [1, 2, 3] = .ok t →
      ∀ w : Nat, 2 ^ 27 ≤ w → t.state[w]? = bigFilter.state[w]?) ∧
    (∀ st : List Nat, st.length = bigFilter.state.length →
      (∀ w : Nat, w < 2 ^ 27 → st[w]? = bigFilter.state[w]?) →
      Check { bigFilter with state := st } [1, 2, 3] = Check bigFilter [1, 2, 3]) ∧
    (Usable bigFilter →
      (∃ t, Add bigFilter [1, 2, 3] = .ok t) ∧ ∃ r, Check bigFilter [1, 2, 3] = .ok r) :=
  ⟨by decide, only_low_bits_used bigFilter [1, 2, 3] (by decide)⟩

end Bloomfilter
